import Mathlib

set_option maxHeartbeats 1000000
set_option maxRecDepth 10000

unseal List.merge List.mergeSort

/-!
# Verification of the Klotski state-space generator

Shallow embedding of `src/scripts/compute_klotski.py` (puzzle model, move
generator, breadth-first state-space exploration) and of
`src/scripts/pack_graph.py` (binary packer and the TypeScript decoder it
emits), together with proofs about the embedded definitions.

Python integers are modelled as `Int`; byte strings as `List Nat` with
values below 256; Python floats in the position table as `ℚ`.
-/

/-- A geometry tuple `(x, y, width, height)` as produced by
`KlotskiState.to_tuple` for one piece. -/
abbrev Geom := Int × Int × Int × Int

/-- `Piece`: a puzzle piece with its position and size
(`@dataclass class Piece`).  The Python dataclass performs no validation of
its fields; neither does this structure. -/
structure Piece where
  id : Int
  x : Int
  y : Int
  width : Int
  height : Int
deriving DecidableEq, Repr

/-- `Piece.get_positions`: all grid positions occupied by this piece
(`for dx in range(self.width): for dy in range(self.height): add (x+dx, y+dy)`).
The Python set is modelled as a list used only up to membership. -/
def Piece.get_positions (p : Piece) : List (Int × Int) :=
  (List.range p.width.toNat).flatMap (fun (dx : Nat) =>
    (List.range p.height.toNat).map (fun (dy : Nat) =>
      (p.x + (dx : Int), p.y + (dy : Int))))

/-- The geometry tuple `(p.x, p.y, p.width, p.height)` of one piece, the
element type of `KlotskiState.to_tuple`. -/
def Piece.geom (p : Piece) : Geom := (p.x, p.y, p.width, p.height)

/-- `KlotskiState`: a state of the Klotski puzzle (pieces list plus board
dimensions). -/
structure KlotskiState where
  pieces : List Piece
  board_width : Int
  board_height : Int
deriving DecidableEq, Repr

/-- Python tuple comparison, specialised to 4-tuples of integers:
lexicographic order, as used by `sorted` in `KlotskiState.to_tuple`. -/
def tupLe (a b : Geom) : Bool :=
  if a.1 < b.1 then true else if b.1 < a.1 then false
  else if a.2.1 < b.2.1 then true else if b.2.1 < a.2.1 then false
  else if a.2.2.1 < b.2.2.1 then true else if b.2.2.1 < a.2.2.1 then false
  else decide (a.2.2.2 ≤ b.2.2.2)

/-- `KlotskiState.to_tuple`: the sorted list of geometry tuples
(`tuple(sorted((p.x, p.y, p.width, p.height) for p in self.pieces))`). -/
def KlotskiState.to_tuple (s : KlotskiState) : List Geom :=
  (s.pieces.map Piece.geom).mergeSort tupLe

/-- The type of state fingerprints. -/
abbrev StateKey := List Geom

/-- `KlotskiState.to_hash`: the source computes
`hashlib.md5(str(self.to_tuple()).encode()).hexdigest()`.  The embedding uses
the canonical sorted tuple itself as the fingerprint: the md5 digest of the
canonical string encoding is a deterministic function of `to_tuple` and is
treated as collision-free. -/
def KlotskiState.to_hash (s : KlotskiState) : StateKey := s.to_tuple

/-- Python `sorted(pieces, key=lambda p: p.id)` (stable ascending sort by
piece id), shared by `to_position_array` and `create_graph_json`. -/
def sortPiecesById (l : List Piece) : List Piece :=
  l.mergeSort (fun p q => decide (p.id ≤ q.id))

/-- `KlotskiState.to_position_array`: the `[x, y]` positions of the pieces
sorted by piece id. -/
def KlotskiState.to_position_array (s : KlotskiState) : List (Int × Int) :=
  (sortPiecesById s.pieces).map (fun p => (p.x, p.y))

/-- `KlotskiState.get_occupied_positions`: the dict `position -> piece_id`,
modelled as its lookup function.  The Python loop writes pieces in list
order, so a later piece overwrites an earlier one on a shared cell; the
`foldl` below keeps the last writer, matching that. -/
def KlotskiState.get_occupied_positions (s : KlotskiState) :
    (Int × Int) → Option Int := fun pos =>
  s.pieces.foldl
    (fun acc p => if pos ∈ p.get_positions then some p.id else acc) none

/-- `KlotskiState.is_valid_position`: boundary checks followed by the
collision check `if pos in occupied and occupied[pos] != piece_id`. -/
def KlotskiState.is_valid_position (s : KlotskiState) (piece_id new_x new_y
    piece_width piece_height : Int) : Bool :=
  if new_x < 0 || new_y < 0 then false
  else if new_x + piece_width > s.board_width then false
  else if new_y + piece_height > s.board_height then false
  else
    (List.range piece_width.toNat).all (fun (dx : Nat) =>
      (List.range piece_height.toNat).all (fun (dy : Nat) =>
        match s.get_occupied_positions (new_x + (dx : Int), new_y + (dy : Int)) with
        | some occupant => occupant == piece_id
        | none => true))

/-- The direction table of `get_possible_moves`:
`[(-1, 0, 'left'), (1, 0, 'right'), (0, -1, 'up'), (0, 1, 'down')]`. -/
def directions : List (Int × Int × String) :=
  [(-1, 0, "left"), (1, 0, "right"), (0, -1, "up"), (0, 1, "down")]

/-- The successor state built inside `get_possible_moves`: every piece whose
id equals `piece.id` is rebuilt at `(new_x, new_y)`, every other piece is
rebuilt unchanged. -/
def KlotskiState.movePiece (s : KlotskiState) (piece_id new_x new_y : Int) :
    KlotskiState :=
  { pieces := s.pieces.map (fun p =>
      if p.id == piece_id then ⟨p.id, new_x, new_y, p.width, p.height⟩
      else ⟨p.id, p.x, p.y, p.width, p.height⟩)
    board_width := s.board_width
    board_height := s.board_height }

/-- `KlotskiState.get_possible_moves`: for each piece in list order, for each
direction in table order, append `(new_state, piece_id, direction)` when the
candidate position is valid.  The Python `moves.append` loop is modelled by
nested `foldl`s over the same iteration order. -/
def KlotskiState.get_possible_moves (s : KlotskiState) :
    List (KlotskiState × Int × String) :=
  s.pieces.foldl (fun moves piece =>
    directions.foldl (fun acc d =>
      let new_x := piece.x + d.1
      let new_y := piece.y + d.2.1
      if s.is_valid_position piece.id new_x new_y piece.width piece.height then
        acc ++ [(s.movePiece piece.id new_x new_y, piece.id, d.2.2)]
      else acc) moves) []

/-- One edge of the state graph, as appended by `compute_state_space`. -/
structure Edge where
  source : StateKey
  target : StateKey
  piece_id : Int
  direction : String
deriving DecidableEq, Repr

/-- The state of the solver at the end of `compute_state_space`:
`visited_states` (a Python dict, modelled as an insertion-ordered
association list), `edges`, and the order in which states were popped and
expanded (the trace counted by `state_count` in the source). -/
structure SolverResult where
  visited : List (StateKey × KlotskiState)
  edges : List Edge
  popped : List StateKey
deriving DecidableEq, Repr

/-- Assignment `d[k] = v` on a Python dict modelled as an insertion-ordered
association list: an existing key keeps its position and gets the new value,
a new key is appended. -/
def dictInsert (d : List (StateKey × KlotskiState)) (k : StateKey)
    (v : KlotskiState) : List (StateKey × KlotskiState) :=
  if d.any (fun kv => kv.1 == k) then
    d.map (fun kv => if kv.1 == k then (k, v) else kv)
  else d ++ [(k, v)]

/-- The inner `for new_state, piece_id, direction in moves` loop of
`compute_state_space`: append the edge unconditionally, then enqueue the
successor when its hash is in neither `visited_states` nor `queued_states`.
Returns the updated `(queue, queued_states, edges)`. -/
def processMoves (h : StateKey) (moves : List (KlotskiState × Int × String))
    (queue : List KlotskiState) (queued : List StateKey)
    (visited : List (StateKey × KlotskiState)) (edges : List Edge) :
    List KlotskiState × List StateKey × List Edge :=
  moves.foldl (fun acc m =>
    let h2 := m.1.to_hash
    let edges2 := acc.2.2 ++ [⟨h, h2, m.2.1, m.2.2⟩]
    if visited.any (fun kv => kv.1 == h2) || acc.2.1.contains h2 then
      (acc.1, acc.2.1, edges2)
    else (acc.1 ++ [m.1], acc.2.1 ++ [h2], edges2))
    (queue, queued, edges)

/-- The `while queue` loop of `compute_state_space`.  The Python loop has no
bound; the embedding spends one unit of fuel per popped state and returns
`none` when fuel runs out before the frontier empties, so `some` results are
exactly the terminating runs. -/
def bfs (fuel : Nat) (queue : List KlotskiState) (queued : List StateKey)
    (visited : List (StateKey × KlotskiState)) (edges : List Edge)
    (popped : List StateKey) : Option SolverResult :=
  match fuel, queue with
  | _, [] => some ⟨visited, edges, popped⟩
  | 0, _ :: _ => none
  | fuel + 1, s :: rest =>
    let h := s.to_hash
    let queued2 := queued.erase h
    let moves := s.get_possible_moves
    let step := processMoves h moves rest queued2 visited edges
    bfs fuel step.1 step.2.1 (dictInsert visited h s) step.2.2 (popped ++ [h])

/-- `KlotskiSolver.compute_state_space` up to the final `create_graph_json`
call: BFS from the initial state with `queue = deque([initial])` and
`queued_states = {initial.to_hash()}`. -/
def KlotskiSolver.compute_state_space (fuel : Nat)
    (initial : KlotskiState) : Option SolverResult :=
  bfs fuel [initial] [initial.to_hash] [] [] []

/-- One entry of the `pieces` list of the graph JSON. -/
structure PieceDef where
  id : Int
  width : Int
  height : Int
deriving DecidableEq, Repr

/-- One entry of the `nodes` list of the graph JSON. -/
structure NodeJson where
  id : StateKey
  positions : List (Int × Int)
deriving DecidableEq, Repr

/-- The `metadata` object of the graph JSON. -/
structure MetadataJson where
  total_nodes : Nat
  total_edges : Nat
  board_width : Int
  board_height : Int
deriving DecidableEq, Repr

/-- The graph JSON produced by `KlotskiSolver.create_graph_json`. -/
structure GraphJson where
  metadata : MetadataJson
  pieces : List PieceDef
  nodes : List NodeJson
  edges : List Edge
deriving DecidableEq, Repr

/-- `KlotskiSolver.create_graph_json`: piece definitions from the initial
state sorted by id, one node per entry of `visited_states` in insertion
order, and the accumulated edge list. -/
def KlotskiSolver.create_graph_json (initial : KlotskiState)
    (res : SolverResult) : GraphJson :=
  let nodes := res.visited.map (fun kv =>
    ({ id := kv.1, positions := kv.2.to_position_array } : NodeJson))
  { metadata :=
      { total_nodes := nodes.length
        total_edges := res.edges.length
        board_width := initial.board_width
        board_height := initial.board_height }
    pieces := (sortPiecesById initial.pieces).map (fun p =>
      ({ id := p.id, width := p.width, height := p.height } : PieceDef))
    nodes := nodes
    edges := res.edges }

/-- `create_classic_klotski`: the classic 4x5 Huarong Road setup. -/
def create_classic_klotski : KlotskiState :=
  { pieces :=
      [⟨0, 1, 0, 2, 2⟩, ⟨1, 0, 0, 1, 2⟩, ⟨2, 3, 0, 1, 2⟩, ⟨3, 0, 2, 1, 2⟩,
       ⟨4, 3, 2, 1, 2⟩, ⟨5, 1, 2, 2, 1⟩, ⟨6, 0, 4, 1, 1⟩, ⟨7, 1, 3, 1, 1⟩,
       ⟨8, 2, 3, 1, 1⟩, ⟨9, 3, 4, 1, 1⟩]
    board_width := 4
    board_height := 5 }

/-- `create_simple_klotski`: the simpler 3x3 test setup. -/
def create_simple_klotski : KlotskiState :=
  { pieces := [⟨0, 0, 0, 2, 2⟩, ⟨1, 2, 0, 1, 2⟩, ⟨2, 0, 2, 1, 1⟩, ⟨3, 1, 2, 1, 1⟩]
    board_width := 3
    board_height := 3 }

/-- A 2x2 board with two interchangeable 1x1 pieces: the smallest puzzle on
which two distinct pieces of identical size can swap places, used to exhibit
the geometry-only fingerprint in concrete runs. -/
def twoByTwoSwap : KlotskiState :=
  { pieces := [⟨0, 0, 0, 1, 1⟩, ⟨1, 1, 0, 1, 1⟩]
    board_width := 2
    board_height := 2 }

/-- The solver result of the full exploration of `create_simple_klotski`
(the simple 3x3 puzzle explores 4 states, so 40 units of fuel suffice). -/
def simpleResult : SolverResult :=
  (KlotskiSolver.compute_state_space 40 create_simple_klotski).getD ⟨[], [], []⟩

/-- The solver result of the full exploration of `twoByTwoSwap` (6 states). -/
def swapResult : SolverResult :=
  (KlotskiSolver.compute_state_space 50 twoByTwoSwap).getD ⟨[], [], []⟩

/-- The graph JSON emitted for the `twoByTwoSwap` exploration. -/
def swapGraph : GraphJson :=
  KlotskiSolver.create_graph_json twoByTwoSwap swapResult

/-!
## Embedding of src/scripts/pack_graph.py

The packer consumes the graph-interchange JSON plus an external position
table and emits a fixed-layout byte stream; the TypeScript decoder
(`parsePackedGraph` inside `generate_typescript_loader`) is embedded as a
parser over the same byte model.  Node fingerprints appear in the JSON as 32
lowercase hex characters; `bytes.fromhex` on the Python side and per-byte
re-hexing on the TypeScript side form a bijection between those strings and
16-byte sequences, so fingerprints are modelled directly as their 16 raw
bytes.  Compression (brotli/zlib) and file IO sit outside the byte layout
and are not modelled. -/

/-- `MAGIC = b'KLGR'`. -/
def MAGIC : List Nat := [75, 76, 71, 82]

/-- `VERSION = 1`. -/
def VERSION : Nat := 1

/-- `POSITION_SCALE = 1.0`. -/
def POSITION_SCALE : ℚ := 1

/-- Python `round`: round half to even, on the exact rational value. -/
def pyRound (q : ℚ) : Int :=
  if q - ⌊q⌋ < 1 / 2 then ⌊q⌋
  else if 1 / 2 < q - ⌊q⌋ then ⌊q⌋ + 1
  else if Even ⌊q⌋ then ⌊q⌋ else ⌊q⌋ + 1

/-- `quantize_position`: scale, round, clamp to the int16 range. -/
def quantize_position (value : ℚ) : Int :=
  max (-32768) (min 32767 (pyRound (value * POSITION_SCALE)))

/-- `dequantize_position`: the int16 divided back by the scale. -/
def dequantize_position (value : Int) : ℚ := (value : ℚ) / POSITION_SCALE

/-- Little-endian bytes of `struct.pack('<H', n)` (value reduced mod 2^16;
`struct.pack` itself rejects out-of-range values, which the round-trip
theorems exclude by hypothesis). -/
def le16 (n : Nat) : List Nat := [n % 256, n / 256 % 256]

/-- Little-endian bytes of `struct.pack('<I', n)` (value reduced mod 2^32). -/
def le32 (n : Nat) : List Nat :=
  [n % 256, n / 256 % 256, n / 65536 % 256, n / 16777216 % 256]

/-- Little-endian bytes of `struct.pack('<h', i)`: two's complement of an
int16. -/
def le16i (i : Int) : List Nat := le16 ((i % 65536).toNat)

/-- One node of the state-space JSON as consumed by `pack_graph`: the
fingerprint as its 16 digest bytes, and the per-piece `[x, y]` array. -/
structure PackNode where
  id : List Nat
  positions : List (Nat × Nat)
deriving DecidableEq, Repr

/-- One edge of the state-space JSON as consumed by `pack_graph`. -/
structure PackEdge where
  source : List Nat
  target : List Nat
  piece_id : Nat
  direction : String
deriving DecidableEq, Repr

/-- The state-space JSON as consumed by `pack_graph`: board dimensions from
`metadata`, piece `(width, height)` pairs (the only piece fields read),
nodes and edges. -/
structure PackGraph where
  board_width : Nat
  board_height : Nat
  pieces : List (Nat × Nat)
  nodes : List PackNode
  edges : List PackEdge
deriving DecidableEq, Repr

/-- The external position table: fingerprint bytes to `(x, y, z)`. -/
abbrev PosTable := List (List Nat × (ℚ × ℚ × ℚ))

/-- The dict `pos_lookup` built from the positions JSON, modelled as its
lookup function (later entries overwrite earlier ones). -/
def posLookup (t : PosTable) (id : List Nat) : Option (ℚ × ℚ × ℚ) :=
  t.foldl (fun acc p => if p.1 == id then some p.2 else acc) none

/-- The dict `node_id_to_idx` built by enumerating the nodes, modelled as
its lookup function (later entries overwrite earlier ones). -/
def nodeIdToIdx (nodes : List PackNode) (id : List Nat) : Option Nat :=
  (nodes.enum.foldl
    (fun acc p => if p.2.id == id then some p.1 else acc) none)

/-- `direction_map.get(direction, 0)` with
`direction_map = {'up': 0, 'down': 1, 'left': 2, 'right': 3}`. -/
def directionCode (d : String) : Nat :=
  if d == "up" then 0 else if d == "down" then 1
  else if d == "left" then 2 else if d == "right" then 3 else 0

/-- The header produced by
`struct.pack('<4sHIIHBBH', MAGIC, VERSION, len(nodes), len(edges),
len(pieces), board_width, board_height, int(POSITION_SCALE * 10))`. -/
def packHeader (g : PackGraph) : List Nat :=
  MAGIC ++ le16 VERSION ++ le32 g.nodes.length ++ le32 g.edges.length ++
  le16 g.pieces.length ++ [g.board_width % 256, g.board_height % 256] ++
  le16 (⌊POSITION_SCALE * 10⌋).toNat

/-- The `edges_data` loop of `pack_graph`.  `node_id_to_idx[edge['source']]`
raises `KeyError` when an endpoint is not among the node ids; that failure
is modelled by `none`. -/
def packEdges (nodes : List PackNode) (edges : List PackEdge) :
    Option (List Nat) :=
  edges.foldl (fun acc e => do
    let bs ← acc
    let si ← nodeIdToIdx nodes e.source
    let ti ← nodeIdToIdx nodes e.target
    pure (bs ++ le32 si ++ le32 ti ++ [e.piece_id % 256, directionCode e.direction]))
    (some [])

/-- The 3D-position section: per node, the quantized looked-up position, or
`(0, 0, 0)` for nodes absent from the table. -/
def pack3D (g : PackGraph) (positions : PosTable) : List Nat :=
  g.nodes.flatMap (fun n =>
    match posLookup positions n.id with
    | some xyz =>
        le16i (quantize_position xyz.1) ++ le16i (quantize_position xyz.2.1) ++
        le16i (quantize_position xyz.2.2)
    | none => le16i 0 ++ le16i 0 ++ le16i 0)

/-- `pack_graph`: the raw (uncompressed) byte stream, i.e. the concatenation
of header, pieces, node ids, node piece positions, 3D positions and edges.
`none` models the `KeyError` on an edge endpoint missing from
`node_id_to_idx`. -/
def pack_graph (g : PackGraph) (positions : PosTable) : Option (List Nat) := do
  let edgesData ← packEdges g.nodes g.edges
  pure (packHeader g ++
    g.pieces.flatMap (fun wh => [wh.1 % 256, wh.2 % 256]) ++
    g.nodes.flatMap (fun n => n.id) ++
    g.nodes.flatMap (fun n => n.positions.flatMap (fun xy => [xy.1 % 256, xy.2 % 256])) ++
    pack3D g positions ++
    edgesData)

/-- `DataView.getUint8`: a single byte, `RangeError` out of bounds. -/
def getU8 (buf : List Nat) (off : Nat) : Except String Nat :=
  match buf.get? off with
  | some b => .ok b
  | none => .error "RangeError"

/-- `DataView.getUint16(off, true)`. -/
def getU16 (buf : List Nat) (off : Nat) : Except String Nat := do
  let b0 ← getU8 buf off
  let b1 ← getU8 buf (off + 1)
  pure (b0 + 256 * b1)

/-- `DataView.getUint32(off, true)`. -/
def getU32 (buf : List Nat) (off : Nat) : Except String Nat := do
  let b0 ← getU8 buf off
  let b1 ← getU8 buf (off + 1)
  let b2 ← getU8 buf (off + 2)
  let b3 ← getU8 buf (off + 3)
  pure (b0 + 256 * b1 + 65536 * b2 + 16777216 * b3)

/-- `DataView.getInt16(off, true)`: two's complement of the 16-bit value. -/
def getI16 (buf : List Nat) (off : Nat) : Except String Int := do
  let v ← getU16 buf off
  pure (if 32768 ≤ v then (v : Int) - 65536 else (v : Int))

/-- A run of 16 id bytes, as read by indexing the `Uint8Array`; indexing out
of bounds yields `undefined` whose `toString` call throws. -/
def getBytes (buf : List Nat) (off n : Nat) : Except String (List Nat) :=
  if off + n ≤ buf.length then .ok ((buf.drop off).take n)
  else .error "TypeError"

/-- A `for (let i = 0; i < count; i++)` read loop: item `i` is read at
`off + i * size`. -/
def parseItems {α : Type} (count : Nat) (readOne : Nat → Except String α)
    (off size : Nat) : Except String (List α) :=
  match count with
  | 0 => .ok []
  | c + 1 => do
    let x ← readOne off
    let xs ← parseItems c readOne (off + size) size
    pure (x :: xs)

/-- The node objects assembled by the decoder. -/
structure ParsedNode where
  id : List Nat
  positions : List (Nat × Nat)
  x : ℚ
  y : ℚ
  z : ℚ
deriving DecidableEq, Repr

/-- The edge objects assembled by the decoder; `nodeIds[srcIdx]` is
`undefined` (here `none`) when the stored index is out of range. -/
structure ParsedEdge where
  source : Option (List Nat)
  target : Option (List Nat)
  piece_id : Nat
  direction : String
deriving DecidableEq, Repr

/-- The metadata block returned by the decoder (the version field is read
during parsing but not returned, exactly as in the TypeScript). -/
structure ParsedMetadata where
  nodeCount : Nat
  edgeCount : Nat
  pieceCount : Nat
  boardWidth : Nat
  boardHeight : Nat
  positionScale : ℚ
deriving DecidableEq, Repr

/-- The value returned by `parsePackedGraph`. -/
structure ParsedGraph where
  metadata : ParsedMetadata
  pieces : List (Nat × Nat)
  nodes : List ParsedNode
  edges : List ParsedEdge
deriving DecidableEq, Repr

/-- The literal `directionMap = ['up', 'down', 'left', 'right']`. -/
def directionList : List String := ["up", "down", "left", "right"]

/-- `parsePackedGraph` of the generated TypeScript loader.  JS number
division by `positionScale` is exact rational division here (the source
never emits a zero scale).  Errors model thrown exceptions: the explicit
`Invalid magic` throw, and `RangeError`/`TypeError` from out-of-bounds
buffer access. -/
def parsePackedGraph (buf : List Nat) : Except String ParsedGraph := do
  let m0 ← getU8 buf 0
  let m1 ← getU8 buf 1
  let m2 ← getU8 buf 2
  let m3 ← getU8 buf 3
  if [m0, m1, m2, m3] ≠ MAGIC then .error "Invalid magic" else do
  let _version ← getU16 buf 4
  let nodeCount ← getU32 buf 6
  let edgeCount ← getU32 buf 10
  let pieceCount ← getU16 buf 14
  let boardWidth ← getU8 buf 16
  let boardHeight ← getU8 buf 17
  let positionScaleRaw ← getU16 buf 18
  let positionScale : ℚ := (positionScaleRaw : ℚ) / 10
  let pieces ← parseItems pieceCount (fun o => do
    let w ← getU8 buf o
    let h ← getU8 buf (o + 1)
    pure (w, h)) 20 2
  let idsOff := 20 + 2 * pieceCount
  let nodeIds ← parseItems nodeCount (fun o => getBytes buf o 16) idsOff 16
  let posOff := idsOff + 16 * nodeCount
  let nodePiecePositions ← parseItems nodeCount (fun o =>
    parseItems pieceCount (fun o2 => do
      let x ← getU8 buf o2
      let y ← getU8 buf (o2 + 1)
      pure (x, y)) o 2) posOff (2 * pieceCount)
  let xyzOff := posOff + 2 * pieceCount * nodeCount
  let node3D ← parseItems nodeCount (fun o => do
    let x ← getI16 buf o
    let y ← getI16 buf (o + 2)
    let z ← getI16 buf (o + 4)
    pure ((x : ℚ) / positionScale, (y : ℚ) / positionScale,
      (z : ℚ) / positionScale)) xyzOff 6
  let nodes := (nodeIds.zip (nodePiecePositions.zip node3D)).map (fun t =>
    ({ id := t.1, positions := t.2.1, x := t.2.2.1, y := t.2.2.2.1,
       z := t.2.2.2.2 } : ParsedNode))
  let edgesOff := xyzOff + 6 * nodeCount
  let edges ← parseItems edgeCount (fun o => do
    let si ← getU32 buf o
    let ti ← getU32 buf (o + 4)
    let pid ← getU8 buf (o + 8)
    let dc ← getU8 buf (o + 9)
    pure ({ source := nodeIds.get? si, target := nodeIds.get? ti,
            piece_id := pid,
            direction := (directionList.get? dc).getD "up" } : ParsedEdge)) edgesOff 10
  pure { metadata :=
           { nodeCount := nodeCount, edgeCount := edgeCount,
             pieceCount := pieceCount, boardWidth := boardWidth,
             boardHeight := boardHeight, positionScale := positionScale }
         pieces := pieces
         nodes := nodes
         edges := edges }

/-- The byte at an offset read non-monadically (0 past the end), used to
state which counts a header declares. -/
def u8At (buf : List Nat) (off : Nat) : Nat := buf.getD off 0

/-- The little-endian 16-bit value at an offset. -/
def u16At (buf : List Nat) (off : Nat) : Nat :=
  u8At buf off + 256 * u8At buf (off + 1)

/-- The little-endian 32-bit value at an offset. -/
def u32At (buf : List Nat) (off : Nat) : Nat :=
  u8At buf off + 256 * u8At buf (off + 1) + 65536 * u8At buf (off + 2) +
  16777216 * u8At buf (off + 3)

/-- The number of bytes the counts declared in a header require:
20-byte header, 2 bytes per piece, then per node 16 id bytes,
2 bytes per piece of positions and 6 bytes of 3D position, and 10 bytes per
edge. -/
def requiredLen (buf : List Nat) : Nat :=
  20 + 2 * u16At buf 14 + 16 * u32At buf 6 +
  2 * u16At buf 14 * u32At buf 6 + 6 * u32At buf 6 + 10 * u32At buf 10

/-!
## Basic lemmas about the piece/state model
-/

/-- The cell list of the nested `range` loops at an arbitrary anchor, the
common shape of `Piece.get_positions` and the collision loop of
`is_valid_position`. -/
def rectCells (nx ny w h : Int) : List (Int × Int) :=
  (List.range w.toNat).flatMap (fun (dx : Nat) =>
    (List.range h.toNat).map (fun (dy : Nat) => (nx + (dx : Int), ny + (dy : Int))))

theorem get_positions_eq_rectCells (p : Piece) :
    p.get_positions = rectCells p.x p.y p.width p.height := rfl

theorem mem_rectCells (nx ny w h : Int) (c : Int × Int) :
    c ∈ rectCells nx ny w h ↔
      nx ≤ c.1 ∧ c.1 < nx + w ∧ ny ≤ c.2 ∧ c.2 < ny + h := by
  obtain ⟨cx, cy⟩ := c
  constructor
  · intro hmem
    obtain ⟨dx, hdx, hmem2⟩ := List.mem_flatMap.mp hmem
    obtain ⟨dy, hdy, heq⟩ := List.mem_map.mp hmem2
    rw [List.mem_range] at hdx hdy
    injection heq with hx hy
    dsimp only
    omega
  · intro hb
    dsimp only at hb
    refine List.mem_flatMap.mpr ⟨(cx - nx).toNat, List.mem_range.mpr (by omega),
      List.mem_map.mpr ⟨(cy - ny).toNat, List.mem_range.mpr (by omega), ?_⟩⟩
    have hx : nx + ((cx - nx).toNat : Int) = cx := by omega
    have hy : ny + ((cy - ny).toNat : Int) = cy := by omega
    rw [hx, hy]

theorem mem_get_positions (p : Piece) (c : Int × Int) :
    c ∈ p.get_positions ↔
      p.x ≤ c.1 ∧ c.1 < p.x + p.width ∧ p.y ≤ c.2 ∧ c.2 < p.y + p.height :=
  mem_rectCells p.x p.y p.width p.height c

/-- `get_positions` reads only the geometry tuple of a piece. -/
theorem get_positions_eq_of_geom_eq {p q : Piece} (h : p.geom = q.geom) :
    p.get_positions = q.get_positions := by
  obtain ⟨hx, hy, hw, hh⟩ : p.x = q.x ∧ p.y = q.y ∧ p.width = q.width ∧
      p.height = q.height := by
    simpa [Piece.geom, Prod.ext_iff] using h
  rw [get_positions_eq_rectCells, get_positions_eq_rectCells, hx, hy, hw, hh]

/-- The ids of a state, in pieces-list order, are pairwise distinct.  The
spec's data model requires one piece per id (all ids unique). -/
def idsNodup (s : KlotskiState) : Prop := (s.pieces.map Piece.id).Nodup

/-- Every cell of every piece lies inside the board. -/
def inBounds (s : KlotskiState) : Prop :=
  ∀ p ∈ s.pieces, ∀ c ∈ p.get_positions,
    0 ≤ c.1 ∧ c.1 < s.board_width ∧ 0 ≤ c.2 ∧ c.2 < s.board_height

/-- No two pieces occupy a common cell. -/
def cellsDisjoint (s : KlotskiState) : Prop :=
  s.pieces.Pairwise (fun p q => ∀ c ∈ p.get_positions, c ∉ q.get_positions)

/-- The state invariant of the spec: unique piece ids, all cells in bounds,
no two pieces overlapping. -/
def WellFormed (s : KlotskiState) : Prop :=
  idsNodup s ∧ inBounds s ∧ cellsDisjoint s

instance (s : KlotskiState) : Decidable (idsNodup s) := by
  unfold idsNodup; infer_instance

instance (s : KlotskiState) : Decidable (inBounds s) := by
  unfold inBounds; infer_instance

instance (s : KlotskiState) : Decidable (cellsDisjoint s) := by
  unfold cellsDisjoint; infer_instance

instance (s : KlotskiState) : Decidable (WellFormed s) := by
  unfold WellFormed; infer_instance

/-- One legal move of the generator, as a relation between states. -/
def stepRel (s t : KlotskiState) : Prop :=
  ∃ pid dir, (t, pid, dir) ∈ s.get_possible_moves

/-- Reachability by a sequence of legal moves. -/
def Reaches (s t : KlotskiState) : Prop := Relation.ReflTransGen stepRel s t

/-!
## Claim-level replay of a recorded move (C2)
-/

/-- The unit translation named by a direction string. -/
def dirDelta (d : String) : Int × Int :=
  if d == "left" then (-1, 0) else if d == "right" then (1, 0)
  else if d == "up" then (0, -1) else (0, 1)

/-- Replaying a recorded move on a node's position array: the entries whose
piece definition carries the recorded id move one unit in the recorded
direction, all others are unchanged. -/
def replayPositions (pieces : List PieceDef) (positions : List (Int × Int))
    (pid : Int) (d : String) : List (Int × Int) :=
  (pieces.zip positions).map (fun pp =>
    if pp.1.id == pid then (pp.2.1 + (dirDelta d).1, pp.2.2 + (dirDelta d).2)
    else pp.2)

/-- The node of a graph carrying a given fingerprint. -/
def findNode (g : GraphJson) (k : StateKey) : Option NodeJson :=
  g.nodes.find? (fun n => n.id == k)

/-- The geometry tuples of a position array paired with the piece
definitions. -/
def nodeGeoms (pieces : List PieceDef) (positions : List (Int × Int)) :
    List Geom :=
  (pieces.zip positions).map (fun pp => (pp.2.1, pp.2.2, pp.1.width, pp.1.height))

/-- Claim C2 as stated, as a decidable check over a finished graph: every
edge's recorded move, replayed on the source node's positions, yields the
target node's positions exactly. -/
def c2Holds (g : GraphJson) : Bool :=
  g.edges.all (fun e =>
    match findNode g e.source, findNode g e.target with
    | some ns, some nt =>
        replayPositions g.pieces ns.positions e.piece_id e.direction == nt.positions
    | _, _ => false)

/-!
## C8: piece construction and occupied cells
-/

/-- C8 (amended): the `Piece` dataclass performs no validation, and for
every constructed piece — valid or not — `get_positions` is exactly
`{(x+dx, y+dy) | 0 <= dx < width, 0 <= dy < height}` (empty when a
dimension is nonpositive). -/
theorem c8_occupied_cells_spec (p : Piece) (c : Int × Int) :
    c ∈ p.get_positions ↔
      ∃ dx dy : Int, 0 ≤ dx ∧ dx < p.width ∧ 0 ≤ dy ∧ dy < p.height ∧
        c = (p.x + dx, p.y + dy) := by
  rw [mem_get_positions]
  constructor
  · rintro ⟨h1, h2, h3, h4⟩
    exact ⟨c.1 - p.x, c.2 - p.y, by omega, by omega, by omega, by omega, by
      obtain ⟨cx, cy⟩ := c
      simp only [Prod.mk.injEq]
      omega⟩
  · rintro ⟨dx, dy, h1, h2, h3, h4, rfl⟩
    simp only
    omega

/-- C8 as stated is false: a `Piece` with nonpositive width and height is
accepted at construction (there is no validation and no
`InvalidPieceError` anywhere in the source) and the move generator happily
offers moves for it instead of any search being prevented. -/
theorem c8_counterexample :
    (Piece.mk 5 0 0 0 (-3)).width ≤ 0 ∧ (Piece.mk 5 0 0 0 (-3)).height ≤ 0 ∧
    (KlotskiState.mk [Piece.mk 5 0 0 0 (-3)] 3 3).get_possible_moves.length = 2 := by
  refine ⟨by decide, by decide, by decide⟩

/-!
## The tuple order and the fingerprint (C4)
-/

theorem tupLe_iff (a b : Geom) : tupLe a b = true ↔
    (a.1 < b.1 ∨ (a.1 = b.1 ∧ (a.2.1 < b.2.1 ∨ (a.2.1 = b.2.1 ∧
      (a.2.2.1 < b.2.2.1 ∨ (a.2.2.1 = b.2.2.1 ∧ a.2.2.2 ≤ b.2.2.2)))))) := by
  unfold tupLe
  split_ifs <;> simp_all <;> omega

theorem tupLe_total (a b : Geom) : tupLe a b || tupLe b a := by
  rw [Bool.or_eq_true, tupLe_iff, tupLe_iff]
  omega

theorem tupLe_trans (a b c : Geom) (h1 : tupLe a b = true)
    (h2 : tupLe b c = true) : tupLe a c = true := by
  rw [tupLe_iff] at h1 h2 ⊢
  omega

theorem tupLe_antisymm (a b : Geom) (h1 : tupLe a b = true)
    (h2 : tupLe b a = true) : a = b := by
  rw [tupLe_iff] at h1 h2
  obtain ⟨a1, a2, a3, a4⟩ := a
  obtain ⟨b1, b2, b3, b4⟩ := b
  simp only [Prod.mk.injEq]
  simp only at h1 h2
  omega

instance : IsAntisymm Geom (fun a b => tupLe a b = true) := ⟨tupLe_antisymm⟩

theorem sorted_to_tuple (s : KlotskiState) :
    List.Sorted (fun a b => tupLe a b = true) s.to_tuple :=
  List.sorted_mergeSort tupLe_trans (fun a b => tupLe_total a b) _

theorem to_tuple_eq_iff_perm (s t : KlotskiState) :
    s.to_tuple = t.to_tuple ↔
      (s.pieces.map Piece.geom).Perm (t.pieces.map Piece.geom) := by
  constructor
  · intro h
    have h1 := List.mergeSort_perm (s.pieces.map Piece.geom) tupLe
    have h2 := List.mergeSort_perm (t.pieces.map Piece.geom) tupLe
    unfold KlotskiState.to_tuple at h
    rw [← h] at h2
    exact h1.symm.trans h2
  · intro h
    have h1 := List.mergeSort_perm (s.pieces.map Piece.geom) tupLe
    have h2 := List.mergeSort_perm (t.pieces.map Piece.geom) tupLe
    exact List.eq_of_perm_of_sorted (h1.trans (h.trans h2.symm))
      (sorted_to_tuple s) (sorted_to_tuple t)

/-- C4: the fingerprint depends only on the unordered multiset of
`(x, y, width, height)` tuples — the order of the pieces list and the
assignment of ids to geometries are irrelevant. -/
theorem c4_fingerprint_geometry_only (s t : KlotskiState)
    (hbw : s.board_width = t.board_width)
    (hbh : s.board_height = t.board_height)
    (hperm : (s.pieces.map Piece.geom).Perm (t.pieces.map Piece.geom)) :
    s.to_hash = t.to_hash :=
  (to_tuple_eq_iff_perm s t).mpr hperm

/-- The geometric swap of `twoByTwoSwap`: piece 0 and piece 1 exchange
their positions. -/
def twoByTwoSwapped : KlotskiState :=
  { pieces := [⟨0, 1, 0, 1, 1⟩, ⟨1, 0, 0, 1, 1⟩]
    board_width := 2
    board_height := 2 }

theorem c4_witness : twoByTwoSwap.to_hash = twoByTwoSwapped.to_hash :=
  c4_fingerprint_geometry_only twoByTwoSwap twoByTwoSwapped rfl rfl (by decide)

/-!
## Characterizing the move generator
-/

theorem foldl_append_eq {α β : Type} (l : List α) (f : α → List β)
    (init : List β) :
    l.foldl (fun acc x => acc ++ f x) init = init ++ l.flatMap f := by
  induction l generalizing init with
  | nil => simp
  | cons a l ih => simp [ih, List.append_assoc]

theorem foldl_filter_append {α β : Type} (l : List α) (c : α → Bool)
    (v : α → β) (init : List β) :
    l.foldl (fun acc x => if c x then acc ++ [v x] else acc) init =
      init ++ l.filterMap (fun x => if c x then some (v x) else none) := by
  induction l generalizing init with
  | nil => simp
  | cons a l ih =>
    simp only [List.foldl_cons, List.filterMap_cons]
    by_cases h : c a
    · simp [h, ih, List.append_assoc]
    · simp [h, ih]

theorem get_possible_moves_eq (s : KlotskiState) :
    s.get_possible_moves = s.pieces.flatMap (fun piece =>
      directions.filterMap (fun d =>
        if s.is_valid_position piece.id (piece.x + d.1) (piece.y + d.2.1)
            piece.width piece.height
        then some (s.movePiece piece.id (piece.x + d.1) (piece.y + d.2.1),
          piece.id, d.2.2)
        else none)) := by
  unfold KlotskiState.get_possible_moves
  rw [List.foldl_ext
    (g := fun moves piece => moves ++ directions.filterMap (fun d =>
      if s.is_valid_position piece.id (piece.x + d.1) (piece.y + d.2.1)
          piece.width piece.height
      then some (s.movePiece piece.id (piece.x + d.1) (piece.y + d.2.1),
        piece.id, d.2.2)
      else none))]
  · exact foldl_append_eq _ _ _
  · intro acc piece _
    exact foldl_filter_append directions _ _ acc

theorem mem_get_possible_moves (s : KlotskiState) (m : KlotskiState × Int × String) :
    m ∈ s.get_possible_moves ↔
      ∃ p ∈ s.pieces, ∃ d ∈ directions,
        s.is_valid_position p.id (p.x + d.1) (p.y + d.2.1) p.width p.height = true ∧
        m = (s.movePiece p.id (p.x + d.1) (p.y + d.2.1), p.id, d.2.2) := by
  rw [get_possible_moves_eq]
  simp only [List.mem_flatMap, List.mem_filterMap]
  constructor
  · rintro ⟨p, hp, d, hd, hm⟩
    by_cases hv : s.is_valid_position p.id (p.x + d.1) (p.y + d.2.1) p.width p.height
    · rw [if_pos hv] at hm
      exact ⟨p, hp, d, hd, hv, (Option.some_inj.mp hm).symm⟩
    · rw [if_neg hv] at hm
      exact absurd hm (by simp)
  · rintro ⟨p, hp, d, hd, hv, rfl⟩
    exact ⟨p, hp, d, hd, by rw [if_pos hv]⟩

/-!
## Characterizing the occupancy map and validity test
-/

theorem occupied_foldl_snoc (l : List Piece) (p : Piece) (pos : Int × Int)
    (init : Option Int) :
    ((l ++ [p]).foldl
      (fun acc q => if pos ∈ q.get_positions then some q.id else acc) init) =
      if pos ∈ p.get_positions then some p.id
      else l.foldl
        (fun acc q => if pos ∈ q.get_positions then some q.id else acc) init := by
  rw [List.foldl_append]
  simp only [List.foldl_cons, List.foldl_nil]

theorem occ_fold_none_iff (l : List Piece) (pos : Int × Int) :
    (l.foldl (fun acc q => if pos ∈ q.get_positions then some q.id else acc)
      none = none) ↔ ∀ p ∈ l, pos ∉ p.get_positions := by
  induction l using List.reverseRecOn with
  | nil => simp
  | append_singleton l p ih =>
    rw [occupied_foldl_snoc]
    split_ifs with hmem
    · constructor
      · intro h
        exact absurd h (by simp)
      · intro h
        exact absurd hmem (h p (List.mem_append.mpr (Or.inr (List.mem_singleton_self p))))
    · rw [ih]
      constructor
      · intro h q hq
        rcases List.mem_append.mp hq with hq2 | hq2
        · exact h q hq2
        · rw [List.mem_singleton.mp hq2]
          exact hmem
      · intro h q hq
        exact h q (List.mem_append.mpr (Or.inl hq))

theorem get_occupied_positions_eq_none (s : KlotskiState) (pos : Int × Int) :
    s.get_occupied_positions pos = none ↔
      ∀ p ∈ s.pieces, pos ∉ p.get_positions :=
  occ_fold_none_iff s.pieces pos

theorem disjoint_symm :
    Symmetric (fun p q : Piece => ∀ c ∈ p.get_positions, c ∉ q.get_positions) := by
  intro p q h c hcq hcp
  exact h c hcp hcq

theorem container_unique {l : List Piece}
    (hdisj : l.Pairwise (fun p q => ∀ c ∈ p.get_positions, c ∉ q.get_positions))
    {q q' : Piece} (hq : q ∈ l) (hq' : q' ∈ l) {c : Int × Int}
    (hc : c ∈ q.get_positions) (hc' : c ∈ q'.get_positions) : q = q' := by
  by_contra hne
  exact hdisj.forall disjoint_symm hq hq' hne c hc hc'

theorem occ_fold_some_iff (l : List Piece) (pos : Int × Int) (i : Int)
    (hdisj : l.Pairwise (fun p q => ∀ c ∈ p.get_positions, c ∉ q.get_positions)) :
    (l.foldl (fun acc q => if pos ∈ q.get_positions then some q.id else acc)
      none = some i) ↔ ∃ p ∈ l, p.id = i ∧ pos ∈ p.get_positions := by
  induction l using List.reverseRecOn with
  | nil => simp
  | append_singleton l p ih =>
    rw [List.pairwise_append] at hdisj
    obtain ⟨hd1, _, hd3⟩ := hdisj
    rw [occupied_foldl_snoc]
    split_ifs with hmem
    · simp only [Option.some_inj, List.mem_append, List.mem_singleton]
      constructor
      · rintro rfl
        exact ⟨p, Or.inr rfl, rfl, hmem⟩
      · rintro ⟨q, hq, hqi, hqc⟩
        rcases hq with hq | rfl
        · exact absurd hmem (hd3 q hq p (List.mem_singleton_self p) pos hqc)
        · exact hqi
    · rw [ih hd1]
      simp only [List.mem_append, List.mem_singleton]
      constructor
      · rintro ⟨q, hq, hqi, hqc⟩
        exact ⟨q, Or.inl hq, hqi, hqc⟩
      · rintro ⟨q, hq, hqi, hqc⟩
        rcases hq with hq | rfl
        · exact ⟨q, hq, hqi, hqc⟩
        · exact absurd hqc hmem

theorem get_occupied_positions_eq_some (s : KlotskiState) (pos : Int × Int)
    (i : Int) (hdisj : cellsDisjoint s) :
    s.get_occupied_positions pos = some i ↔
      ∃ p ∈ s.pieces, p.id = i ∧ pos ∈ p.get_positions :=
  occ_fold_some_iff s.pieces pos i hdisj

theorem cell_check_iff (s : KlotskiState) (hdisj : cellsDisjoint s) (pid : Int)
    (c : Int × Int) :
    ((match s.get_occupied_positions c with
      | some occupant => occupant == pid
      | none => true) = true) ↔
      ∀ q ∈ s.pieces, q.id ≠ pid → c ∉ q.get_positions := by
  cases hocc : s.get_occupied_positions c with
  | none =>
    refine ⟨fun _ q hq _ hcq =>
      absurd hcq ((get_occupied_positions_eq_none s c).mp hocc q hq),
      fun _ => rfl⟩
  | some i =>
    simp only [beq_iff_eq]
    obtain ⟨q0, hq0, hid0, hc0⟩ :=
      (get_occupied_positions_eq_some s c i hdisj).mp hocc
    constructor
    · rintro rfl q hq hne hcq
      exact hne (by rw [container_unique hdisj hq hq0 hcq hc0, hid0])
    · intro hall
      by_contra hne
      exact (hall q0 hq0 (by rw [hid0]; exact hne)) hc0

theorem collision_loop_iff (s : KlotskiState) (pid nx ny w h : Int) :
    ((List.range w.toNat).all (fun (dx : Nat) =>
      (List.range h.toNat).all (fun (dy : Nat) =>
        match s.get_occupied_positions (nx + (dx : Int), ny + (dy : Int)) with
        | some occupant => occupant == pid
        | none => true)) = true) ↔
    ∀ c ∈ rectCells nx ny w h,
      (match s.get_occupied_positions c with
       | some occupant => occupant == pid
       | none => true) = true := by
  simp only [List.all_eq_true, List.mem_range]
  constructor
  · intro hall c hc
    rw [mem_rectCells] at hc
    have h2 := hall (c.1 - nx).toNat (by omega) (c.2 - ny).toNat (by omega)
    have hcl : (nx + ((c.1 - nx).toNat : Int), ny + ((c.2 - ny).toNat : Int)) = c := by
      obtain ⟨cx, cy⟩ := c
      dsimp only at hc ⊢
      simp only [Prod.mk.injEq]
      exact ⟨by omega, by omega⟩
    rw [hcl] at h2
    exact h2
  · intro hall dx hdx dy hdy
    refine hall (nx + dx, ny + dy) ?_
    rw [mem_rectCells]
    dsimp only
    omega

theorem is_valid_position_iff (s : KlotskiState) (hdisj : cellsDisjoint s)
    (pid nx ny w h : Int) :
    s.is_valid_position pid nx ny w h = true ↔
      (0 ≤ nx ∧ 0 ≤ ny ∧ nx + w ≤ s.board_width ∧ ny + h ≤ s.board_height ∧
       ∀ c ∈ rectCells nx ny w h, ∀ q ∈ s.pieces, q.id ≠ pid →
         c ∉ q.get_positions) := by
  unfold KlotskiState.is_valid_position
  split_ifs with h1 h2 h3
  · simp only [Bool.false_eq_true, false_iff]
    simp only [Bool.or_eq_true, decide_eq_true_eq] at h1
    rintro ⟨ha, hb, -, -, -⟩
    omega
  · simp only [Bool.false_eq_true, false_iff]
    simp only [decide_eq_true_eq] at h2
    rintro ⟨-, -, hc, -, -⟩
    omega
  · simp only [Bool.false_eq_true, false_iff]
    simp only [decide_eq_true_eq] at h3
    rintro ⟨-, -, -, hd, -⟩
    omega
  · simp only [Bool.or_eq_true, decide_eq_true_eq, not_or] at h1
    simp only [decide_eq_true_eq] at h2 h3
    rw [collision_loop_iff]
    constructor
    · intro hall
      refine ⟨by omega, by omega, by omega, by omega, ?_⟩
      intro c hc q hq hqid
      exact (cell_check_iff s hdisj pid c).mp (hall c hc) q hq hqid
    · rintro ⟨-, -, -, -, hcells⟩
      intro c hc
      exact (cell_check_iff s hdisj pid c).mpr (fun q hq hqid => hcells c hc q hq hqid)

/-!
## C3: the generator preserves the state invariant
-/

theorem moved_pieces_map_id (s : KlotskiState) (pid nx ny : Int) :
    (s.movePiece pid nx ny).pieces.map Piece.id = s.pieces.map Piece.id := by
  unfold KlotskiState.movePiece
  simp only [List.map_map]
  apply List.map_congr_left
  intro p _
  by_cases h : p.id = pid <;> simp [h, Function.comp]

/-- The id, width and height of every piece, unchanged by a move. -/
def pieceIdWH (p : Piece) : Int × Int × Int := (p.id, p.width, p.height)

theorem moved_pieces_map_idwh (s : KlotskiState) (pid nx ny : Int) :
    (s.movePiece pid nx ny).pieces.map pieceIdWH = s.pieces.map pieceIdWH := by
  unfold KlotskiState.movePiece
  simp only [List.map_map]
  apply List.map_congr_left
  intro p _
  by_cases h : p.id = pid <;> simp [h, Function.comp, pieceIdWH]

theorem movePiece_board (s : KlotskiState) (pid nx ny : Int) :
    (s.movePiece pid nx ny).board_width = s.board_width ∧
    (s.movePiece pid nx ny).board_height = s.board_height := ⟨rfl, rfl⟩

theorem id_eq_of_mem_of_nodup {l : List Piece} (hnd : (l.map Piece.id).Nodup)
    {a b : Piece} (ha : a ∈ l) (hb : b ∈ l) (hid : a.id = b.id) : a = b :=
  List.inj_on_of_nodup_map hnd ha hb hid

/-- Every successor emitted by the move generator from a well-formed state
is well-formed (shared helper; the C3 claim theorem wraps it). -/
theorem moves_preserve_invariant (s : KlotskiState)
    (hwf : WellFormed s) : ∀ m ∈ s.get_possible_moves, WellFormed m.1 := by
  obtain ⟨hids, hbnd, hdisj⟩ := hwf
  intro m hm
  rw [mem_get_possible_moves] at hm
  obtain ⟨p, hp, d, hd, hv, rfl⟩ := hm
  rw [is_valid_position_iff s hdisj] at hv
  obtain ⟨hv1, hv2, hv3, hv4, hv5⟩ := hv
  dsimp only
  refine ⟨?_, ?_, ?_⟩
  · unfold idsNodup
    rw [moved_pieces_map_id]
    exact hids
  · unfold inBounds KlotskiState.movePiece
    dsimp only
    intro q' hq' c hc
    obtain ⟨q, hq, rfl⟩ := List.mem_map.mp hq'
    by_cases hqid : q.id = p.id
    · rw [if_pos (by simp [hqid])] at hc
      have hqp : q = p := id_eq_of_mem_of_nodup hids hq hp hqid
      rw [get_positions_eq_rectCells] at hc
      dsimp only at hc
      rw [mem_rectCells] at hc
      subst hqp
      exact ⟨by omega, by omega, by omega, by omega⟩
    · rw [if_neg (by simp [hqid])] at hc
      have hcq : c ∈ q.get_positions := by
        rw [get_positions_eq_rectCells]
        exact hc
      exact hbnd q hq c hcq
  · unfold cellsDisjoint KlotskiState.movePiece
    dsimp only
    rw [List.pairwise_map]
    refine List.Pairwise.imp_of_mem ?_ hdisj
    intro a b ha hb hab
    intro c hca hcb
    by_cases haid : a.id = p.id <;> by_cases hbid : b.id = p.id
    · rw [if_pos (by simp [haid])] at hca
      rw [get_positions_eq_rectCells] at hca
      dsimp only at hca
      rw [mem_rectCells] at hca
      have hba : a = b := id_eq_of_mem_of_nodup hids ha hb (by rw [haid, hbid])
      have hmem : (a.x, a.y) ∈ a.get_positions := by
        rw [mem_get_positions]
        dsimp only
        refine ⟨le_refl _, by omega, le_refl _, by omega⟩
      exact hab (a.x, a.y) hmem (hba ▸ hmem)
    · rw [if_pos (by simp [haid])] at hca
      rw [if_neg (by simp [hbid])] at hcb
      have hap : a = p := id_eq_of_mem_of_nodup hids ha hp haid
      rw [get_positions_eq_rectCells] at hca
      dsimp only at hca
      have hcb2 : c ∈ b.get_positions := by
        rw [get_positions_eq_rectCells]
        exact hcb
      subst hap
      exact hv5 c hca b hb hbid hcb2
    · rw [if_neg (by simp [haid])] at hca
      rw [if_pos (by simp [hbid])] at hcb
      have hbp : b = p := id_eq_of_mem_of_nodup hids hb hp hbid
      rw [get_positions_eq_rectCells] at hcb
      dsimp only at hcb
      have hca2 : c ∈ a.get_positions := by
        rw [get_positions_eq_rectCells]
        exact hca
      subst hbp
      exact hv5 c hcb a ha haid hca2
    · rw [if_neg (by simp [haid])] at hca
      rw [if_neg (by simp [hbid])] at hcb
      have hca2 : c ∈ a.get_positions := by
        rw [get_positions_eq_rectCells]
        exact hca
      have hcb2 : c ∈ b.get_positions := by
        rw [get_positions_eq_rectCells]
        exact hcb
      exact hab c hca2 hcb2

/-- C3: every successor state emitted by the move generator from a state
satisfying the state invariant (unique ids, in-bounds, pairwise disjoint
occupied cells) itself satisfies the state invariant; in particular no
emitted move places any cell of a piece outside the board. -/
theorem c3_generator_preserves_invariant (s : KlotskiState)
    (hwf : WellFormed s) : ∀ m ∈ s.get_possible_moves, WellFormed m.1 :=
  moves_preserve_invariant s hwf

theorem c3_witness : WellFormed (create_simple_klotski.movePiece 1 2 1) :=
  c3_generator_preserves_invariant create_simple_klotski (by decide)
    (create_simple_klotski.movePiece 1 2 1, 1, "down") (by decide)

/-!
## The BFS loop: bookkeeping lemmas
-/

theorem any_key_iff (visited : List (StateKey × KlotskiState)) (k : StateKey) :
    (visited.any (fun kv => kv.1 == k)) = true ↔ k ∈ visited.map Prod.fst := by
  rw [List.any_eq_true]
  constructor
  · rintro ⟨kv, hkv, heq⟩
    rw [beq_iff_eq] at heq
    exact heq ▸ List.mem_map_of_mem Prod.fst hkv
  · intro hk
    obtain ⟨kv, hkv, heq⟩ := List.mem_map.mp hk
    exact ⟨kv, hkv, by rw [beq_iff_eq]; exact heq⟩

theorem contains_key_iff (l : List StateKey) (k : StateKey) :
    l.contains k = true ↔ k ∈ l := by
  simp

theorem dictInsert_of_not_mem (d : List (StateKey × KlotskiState))
    (k : StateKey) (v : KlotskiState) (hk : k ∉ d.map Prod.fst) :
    dictInsert d k v = d ++ [(k, v)] := by
  unfold dictInsert
  rw [if_neg]
  intro hany
  exact hk ((any_key_iff d k).mp hany)

theorem processMoves_nil (h : StateKey) (queue : List KlotskiState)
    (queued : List StateKey) (visited : List (StateKey × KlotskiState))
    (edges : List Edge) :
    processMoves h [] queue queued visited edges = (queue, queued, edges) := rfl

theorem processMoves_cons (h : StateKey) (m : KlotskiState × Int × String)
    (moves : List (KlotskiState × Int × String)) (queue : List KlotskiState)
    (queued : List StateKey) (visited : List (StateKey × KlotskiState))
    (edges : List Edge) :
    processMoves h (m :: moves) queue queued visited edges =
      if (visited.any (fun kv => kv.1 == m.1.to_hash)) ||
          queued.contains m.1.to_hash then
        processMoves h moves queue queued visited
          (edges ++ [⟨h, m.1.to_hash, m.2.1, m.2.2⟩])
      else
        processMoves h moves (queue ++ [m.1]) (queued ++ [m.1.to_hash]) visited
          (edges ++ [⟨h, m.1.to_hash, m.2.1, m.2.2⟩]) := by
  unfold processMoves
  rw [List.foldl_cons]
  dsimp only
  split_ifs <;> rfl

theorem processMoves_spec (h : StateKey)
    (moves : List (KlotskiState × Int × String)) :
    ∀ (queue : List KlotskiState) (queued : List StateKey)
      (visited : List (StateKey × KlotskiState)) (edges : List Edge),
      queued = queue.map KlotskiState.to_hash → queued.Nodup →
      (∀ k ∈ queued, k ∉ visited.map Prod.fst) →
      ((processMoves h moves queue queued visited edges).2.1 =
        (processMoves h moves queue queued visited edges).1.map
          KlotskiState.to_hash ∧
      (processMoves h moves queue queued visited edges).2.1.Nodup ∧
      (∀ k ∈ (processMoves h moves queue queued visited edges).2.1,
        k ∉ visited.map Prod.fst) ∧
      (∀ k ∈ queued, k ∈ (processMoves h moves queue queued visited edges).2.1) ∧
      (∀ s ∈ (processMoves h moves queue queued visited edges).1,
        s ∈ queue ∨ ∃ m ∈ moves, s = m.1) ∧
      (∀ m ∈ moves, m.1.to_hash ∈ visited.map Prod.fst ∨
        m.1.to_hash ∈ (processMoves h moves queue queued visited edges).2.1) ∧
      (processMoves h moves queue queued visited edges).2.2 =
        edges ++ moves.map (fun m => Edge.mk h m.1.to_hash m.2.1 m.2.2)) := by
  induction moves with
  | nil =>
    intro queue queued visited edges hq hnd hdisj
    rw [processMoves_nil]
    refine ⟨hq, hnd, hdisj, fun k hk => hk, fun s hs => Or.inl hs,
      fun m hm => absurd hm (List.not_mem_nil m), by simp⟩
  | cons m moves ih =>
    intro queue queued visited edges hq hnd hdisj
    rw [processMoves_cons]
    split_ifs with hc
    · obtain ⟨c1, c2, c3, c4, c5, c6, c7⟩ :=
        ih queue queued visited (edges ++ [⟨h, m.1.to_hash, m.2.1, m.2.2⟩])
          hq hnd hdisj
      refine ⟨c1, c2, c3, c4, ?_, ?_, ?_⟩
      · intro s hs
        rcases c5 s hs with hs2 | ⟨m2, hm2, hs2⟩
        · exact Or.inl hs2
        · exact Or.inr ⟨m2, List.mem_cons_of_mem m hm2, hs2⟩
      · intro m2 hm2
        rcases List.mem_cons.mp hm2 with rfl | hm3
        · rw [Bool.or_eq_true] at hc
          rcases hc with hc | hc
          · exact Or.inl ((any_key_iff visited m2.1.to_hash).mp hc)
          · exact Or.inr (c4 m2.1.to_hash ((contains_key_iff queued m2.1.to_hash).mp hc))
        · exact c6 m2 hm3
      · rw [c7]
        simp [List.append_assoc]
    · have hc2 : m.1.to_hash ∉ visited.map Prod.fst ∧ m.1.to_hash ∉ queued := by
        rw [Bool.or_eq_true, not_or] at hc
        exact ⟨fun hmem => hc.1 ((any_key_iff visited m.1.to_hash).mpr hmem),
          fun hmem => hc.2 ((contains_key_iff queued m.1.to_hash).mpr hmem)⟩
      have hq2 : queued ++ [m.1.to_hash] =
          (queue ++ [m.1]).map KlotskiState.to_hash := by
        rw [List.map_append, hq]
        rfl
      have hnd2 : (queued ++ [m.1.to_hash]).Nodup := by
        rw [List.nodup_append]
        exact ⟨hnd, List.nodup_singleton _, by
          intro a ha hb
          rw [List.mem_singleton] at hb
          subst hb
          exact hc2.2 ha⟩
      have hdisj2 : ∀ k ∈ queued ++ [m.1.to_hash], k ∉ visited.map Prod.fst := by
        intro k hk
        rcases List.mem_append.mp hk with hk | hk
        · exact hdisj k hk
        · rw [List.mem_singleton] at hk
          subst hk
          exact hc2.1
      obtain ⟨c1, c2, c3, c4, c5, c6, c7⟩ :=
        ih (queue ++ [m.1]) (queued ++ [m.1.to_hash]) visited
          (edges ++ [⟨h, m.1.to_hash, m.2.1, m.2.2⟩]) hq2 hnd2 hdisj2
      refine ⟨c1, c2, c3, ?_, ?_, ?_, ?_⟩
      · intro k hk
        exact c4 k (List.mem_append.mpr (Or.inl hk))
      · intro s hs
        rcases c5 s hs with hs2 | ⟨m2, hm2, hs2⟩
        · rcases List.mem_append.mp hs2 with hs3 | hs3
          · exact Or.inl hs3
          · rw [List.mem_singleton] at hs3
            exact Or.inr ⟨m, List.mem_cons_self m moves, hs3⟩
        · exact Or.inr ⟨m2, List.mem_cons_of_mem m hm2, hs2⟩
      · intro m2 hm2
        rcases List.mem_cons.mp hm2 with rfl | hm3
        · exact Or.inr (c4 m2.1.to_hash (List.mem_append.mpr
            (Or.inr (List.mem_singleton_self _))))
        · exact c6 m2 hm3
      · rw [c7]
        simp [List.append_assoc]

theorem countP_lt_of_witness {α : Type} (l : List α) (P Q : α → Bool)
    (himp : ∀ x ∈ l, Q x = true → P x = true)
    (a : α) (ha : a ∈ l) (hPa : P a = true) (hQa : Q a = false) :
    l.countP Q < l.countP P := by
  obtain ⟨l1, l2, rfl⟩ := List.append_of_mem ha
  rw [List.countP_append, List.countP_append, List.countP_cons, List.countP_cons,
    hPa, hQa]
  have h1 : List.countP Q l1 ≤ List.countP P l1 :=
    List.countP_mono_left (fun x hx => himp x (by simp [hx]))
  have h2 : List.countP Q l2 ≤ List.countP P l2 :=
    List.countP_mono_left (fun x hx => himp x (by simp [hx]))
  rw [if_pos rfl, if_neg (by simp : ¬((false : Bool) = true))]
  omega

theorem geom_countP_lt (s : KlotskiState) (p : Piece) (hp : p ∈ s.pieces)
    (nx ny : Int) (hne : ¬(nx = p.x ∧ ny = p.y)) :
    ((s.movePiece p.id nx ny).pieces.map Piece.geom).countP (fun g => g == p.geom) <
      (s.pieces.map Piece.geom).countP (fun g => g == p.geom) := by
  unfold KlotskiState.movePiece
  dsimp only
  rw [List.map_map, List.countP_map, List.countP_map]
  refine countP_lt_of_witness s.pieces _ _ ?_ p hp ?_ ?_
  · intro q hq hQ
    simp only [Function.comp_apply, beq_iff_eq] at hQ ⊢
    by_cases hqid : q.id = p.id
    · rw [if_pos (by simp [hqid])] at hQ
      unfold Piece.geom at hQ
      dsimp only at hQ
      rw [Prod.mk.injEq, Prod.mk.injEq, Prod.mk.injEq] at hQ
      exact absurd ⟨hQ.1, hQ.2.1⟩ hne
    · rw [if_neg (by simp [hqid])] at hQ
      exact hQ
  · simp only [Function.comp_apply, beq_iff_eq]
  · simp only [Function.comp_apply, if_pos (by simp : (p.id == p.id) = true)]
    unfold Piece.geom
    dsimp only
    rw [beq_eq_false_iff_ne]
    intro hcon
    rw [Prod.mk.injEq, Prod.mk.injEq, Prod.mk.injEq] at hcon
    exact hne ⟨hcon.1, hcon.2.1⟩

/-- A single move always changes the fingerprint: the moved piece's tuple
changes and no other tuple does. -/
theorem hash_ne_of_move (s : KlotskiState) :
    ∀ m ∈ s.get_possible_moves, m.1.to_hash ≠ s.to_hash := by
  intro m hm heq
  rw [mem_get_possible_moves] at hm
  obtain ⟨p, hp, d, hd, hv, rfl⟩ := hm
  have hperm := (to_tuple_eq_iff_perm _ s).mp heq
  have hcount := hperm.countP_eq (fun g => g == p.geom)
  have hne : ¬(p.x + d.1 = p.x ∧ p.y + d.2.1 = p.y) := by
    fin_cases hd <;> dsimp only <;> omega
  have hlt := geom_countP_lt s p hp (p.x + d.1) (p.y + d.2.1) hne
  rw [hcount] at hlt
  exact lt_irrefl _ hlt

/-!
## The BFS loop invariant
-/

/-- The invariant maintained across iterations of the `while queue` loop of
`compute_state_space`. -/
structure BfsInv (init : KlotskiState) (queue : List KlotskiState)
    (queued : List StateKey) (visited : List (StateKey × KlotskiState))
    (edges : List Edge) (popped : List StateKey) : Prop where
  queued_eq : queued = queue.map KlotskiState.to_hash
  queued_nodup : queued.Nodup
  keys_nodup : (visited.map Prod.fst).Nodup
  disj : ∀ k ∈ queued, k ∉ visited.map Prod.fst
  keys_popped : visited.map Prod.fst = popped
  vhash : ∀ kv ∈ visited, Prod.fst kv = (Prod.snd kv).to_hash
  vreach : ∀ kv ∈ visited, Reaches init (Prod.snd kv)
  qreach : ∀ s ∈ queue, Reaches init s
  closure : ∀ kv ∈ visited, ∀ m ∈ (Prod.snd kv).get_possible_moves,
    m.1.to_hash ∈ visited.map Prod.fst ∨ m.1.to_hash ∈ queued
  etrace : edges = (visited.map (fun kv =>
    (Prod.snd kv).get_possible_moves.map (fun m =>
      Edge.mk (Prod.fst kv) m.1.to_hash m.2.1 m.2.2))).flatten
  init_mem : init.to_hash ∈ visited.map Prod.fst ∨ init.to_hash ∈ queued

theorem bfs_nil (fuel : Nat) (queued : List StateKey)
    (visited : List (StateKey × KlotskiState)) (edges : List Edge)
    (popped : List StateKey) :
    bfs fuel [] queued visited edges popped = some ⟨visited, edges, popped⟩ := by
  cases fuel <;> rfl

theorem bfs_zero_cons (s : KlotskiState) (rest : List KlotskiState)
    (queued : List StateKey) (visited : List (StateKey × KlotskiState))
    (edges : List Edge) (popped : List StateKey) :
    bfs 0 (s :: rest) queued visited edges popped = none := rfl

theorem bfs_cons (fuel : Nat) (s : KlotskiState) (rest : List KlotskiState)
    (queued : List StateKey) (visited : List (StateKey × KlotskiState))
    (edges : List Edge) (popped : List StateKey) :
    bfs (fuel + 1) (s :: rest) queued visited edges popped =
      bfs fuel
        (processMoves s.to_hash s.get_possible_moves rest
          (queued.erase s.to_hash) visited edges).1
        (processMoves s.to_hash s.get_possible_moves rest
          (queued.erase s.to_hash) visited edges).2.1
        (dictInsert visited s.to_hash s)
        (processMoves s.to_hash s.get_possible_moves rest
          (queued.erase s.to_hash) visited edges).2.2
        (popped ++ [s.to_hash]) := rfl

theorem bfsInv_step {init : KlotskiState} {s : KlotskiState}
    {rest : List KlotskiState} {queued : List StateKey}
    {visited : List (StateKey × KlotskiState)} {edges : List Edge}
    {popped : List StateKey}
    (inv : BfsInv init (s :: rest) queued visited edges popped) :
    BfsInv init
      (processMoves s.to_hash s.get_possible_moves rest
        (queued.erase s.to_hash) visited edges).1
      (processMoves s.to_hash s.get_possible_moves rest
        (queued.erase s.to_hash) visited edges).2.1
      (dictInsert visited s.to_hash s)
      (processMoves s.to_hash s.get_possible_moves rest
        (queued.erase s.to_hash) visited edges).2.2
      (popped ++ [s.to_hash]) := by
  have hq0 : queued = s.to_hash :: rest.map KlotskiState.to_hash := by
    rw [inv.queued_eq, List.map_cons]
  have herase : queued.erase s.to_hash = rest.map KlotskiState.to_hash := by
    rw [hq0, List.erase_cons_head]
  have hnotin : s.to_hash ∉ visited.map Prod.fst :=
    inv.disj s.to_hash (by rw [hq0]; exact List.mem_cons_self _ _)
  have hq0nodup := inv.queued_nodup
  rw [hq0] at hq0nodup
  have hheadtail : s.to_hash ∉ rest.map KlotskiState.to_hash :=
    (List.nodup_cons.mp hq0nodup).1
  have hinsert : dictInsert visited s.to_hash s = visited ++ [(s.to_hash, s)] :=
    dictInsert_of_not_mem visited s.to_hash s hnotin
  have sreach : Reaches init s := inv.qreach s (List.mem_cons_self _ _)
  obtain ⟨c1, c2, c3, c4, c5, c6, c7⟩ :=
    processMoves_spec s.to_hash s.get_possible_moves rest
      (queued.erase s.to_hash) visited edges (by rw [herase])
      (by rw [herase]; exact (List.nodup_cons.mp hq0nodup).2)
      (by
        intro k hk
        refine inv.disj k ?_
        rw [hq0]
        rw [herase] at hk
        exact List.mem_cons_of_mem _ hk)
  have hknotnew : ∀ k ∈ (processMoves s.to_hash s.get_possible_moves rest
      (queued.erase s.to_hash) visited edges).2.1, k ≠ s.to_hash := by
    intro k hk
    rw [c1] at hk
    obtain ⟨t, ht, rfl⟩ := List.mem_map.mp hk
    rcases c5 t ht with ht2 | ⟨m2, hm2, rfl⟩
    · intro hcon
      exact hheadtail (hcon ▸ List.mem_map_of_mem KlotskiState.to_hash ht2)
    · exact hash_ne_of_move s m2 hm2
  refine ⟨c1, c2, ?_, ?_, ?_, ?_, ?_, ?_, ?_, ?_, ?_⟩
  · rw [hinsert, List.map_append, List.nodup_append]
    refine ⟨inv.keys_nodup, List.nodup_singleton _, ?_⟩
    intro a ha hb
    rw [List.map_singleton, List.mem_singleton] at hb
    subst hb
    exact hnotin ha
  · intro k hk
    rw [hinsert, List.map_append, List.mem_append]
    rintro (hmem | hmem)
    · exact c3 k hk hmem
    · rw [List.map_singleton, List.mem_singleton] at hmem
      exact hknotnew k hk hmem
  · rw [hinsert, List.map_append, inv.keys_popped, List.map_singleton]
  · intro kv hkv
    rw [hinsert] at hkv
    rcases List.mem_append.mp hkv with hkv | hkv
    · exact inv.vhash kv hkv
    · rw [List.mem_singleton] at hkv
      subst hkv
      rfl
  · intro kv hkv
    rw [hinsert] at hkv
    rcases List.mem_append.mp hkv with hkv | hkv
    · exact inv.vreach kv hkv
    · rw [List.mem_singleton] at hkv
      subst hkv
      exact sreach
  · intro t ht
    rcases c5 t ht with ht2 | ⟨m2, hm2, rfl⟩
    · exact inv.qreach t (List.mem_cons_of_mem _ ht2)
    · exact Relation.ReflTransGen.tail sreach ⟨m2.2.1, m2.2.2, hm2⟩
  · intro kv hkv m hm
    rw [hinsert] at hkv
    rcases List.mem_append.mp hkv with hkv | hkv
    · rcases inv.closure kv hkv m hm with hin | hin
      · exact Or.inl (by
          rw [hinsert, List.map_append, List.mem_append]
          exact Or.inl hin)
      · rw [hq0] at hin
        rcases List.mem_cons.mp hin with heq | hin
        · refine Or.inl ?_
          rw [hinsert, List.map_append, List.mem_append, List.map_singleton, heq]
          exact Or.inr (List.mem_singleton_self _)
        · exact Or.inr (c4 _ (by rw [herase]; exact hin))
    · rw [List.mem_singleton] at hkv
      subst hkv
      rcases c6 m hm with hin | hin
      · exact Or.inl (by
          rw [hinsert, List.map_append, List.mem_append]
          exact Or.inl hin)
      · exact Or.inr hin
  · rw [c7, inv.etrace, hinsert, List.map_append, List.flatten_append]
    simp only [List.map_cons, List.map_nil, List.flatten_cons, List.flatten_nil,
      List.append_nil]
  · rcases inv.init_mem with hin | hin
    · exact Or.inl (by
        rw [hinsert, List.map_append, List.mem_append]
        exact Or.inl hin)
    · rw [hq0] at hin
      rcases List.mem_cons.mp hin with heq | hin
      · exact Or.inl (by
          rw [hinsert, List.map_append, List.mem_append, List.map_singleton, heq]
          exact Or.inr (List.mem_singleton_self _))
      · exact Or.inr (c4 _ (by rw [herase]; exact hin))

theorem bfs_run {init : KlotskiState} (fuel : Nat) :
    ∀ (queue : List KlotskiState) (queued : List StateKey)
      (visited : List (StateKey × KlotskiState)) (edges : List Edge)
      (popped : List StateKey) (res : SolverResult),
      BfsInv init queue queued visited edges popped →
      bfs fuel queue queued visited edges popped = some res →
      BfsInv init [] [] res.visited res.edges res.popped ∧
      visited <+: res.visited ∧ popped <+: res.popped := by
  induction fuel with
  | zero =>
    intro queue queued visited edges popped res inv hrun
    cases queue with
    | nil =>
      rw [bfs_nil] at hrun
      obtain rfl := Option.some_inj.mp hrun.symm
      have hq : queued = [] := by rw [inv.queued_eq, List.map_nil]
      subst hq
      exact ⟨inv, List.prefix_rfl, List.prefix_rfl⟩
    | cons s rest =>
      rw [bfs_zero_cons] at hrun
      cases hrun
  | succ fuel ih =>
    intro queue queued visited edges popped res inv hrun
    cases queue with
    | nil =>
      rw [bfs_nil] at hrun
      obtain rfl := Option.some_inj.mp hrun.symm
      have hq : queued = [] := by rw [inv.queued_eq, List.map_nil]
      subst hq
      exact ⟨inv, List.prefix_rfl, List.prefix_rfl⟩
    | cons s rest =>
      rw [bfs_cons] at hrun
      have hstep := bfsInv_step inv
      obtain ⟨hres, hv, hp⟩ := ih _ _ _ _ _ _ hstep hrun
      have hnotin : s.to_hash ∉ visited.map Prod.fst :=
        inv.disj s.to_hash (by
          rw [inv.queued_eq, List.map_cons]
          exact List.mem_cons_self _ _)
      have hinsert : dictInsert visited s.to_hash s =
          visited ++ [(s.to_hash, s)] :=
        dictInsert_of_not_mem visited s.to_hash s hnotin
      rw [hinsert] at hv
      exact ⟨hres, (List.prefix_append visited [(s.to_hash, s)]).trans hv,
        (List.prefix_append popped [s.to_hash]).trans hp⟩

theorem bfsInv_start (init : KlotskiState) :
    BfsInv init [init] [init.to_hash] [] [] [] := by
  refine ⟨rfl, List.nodup_singleton _, List.nodup_nil, ?_, rfl, ?_, ?_, ?_, ?_,
    rfl, Or.inr (List.mem_singleton_self _)⟩
  · intro k _ hk
    cases hk
  · intro kv hkv
    cases hkv
  · intro kv hkv
    cases hkv
  · intro t ht
    rw [List.mem_singleton] at ht
    subst ht
    exact Relation.ReflTransGen.refl
  · intro kv hkv
    cases hkv

theorem compute_state_space_inv {init : KlotskiState} {fuel : Nat}
    {res : SolverResult}
    (hrun : KlotskiSolver.compute_state_space fuel init = some res) :
    BfsInv init [] [] res.visited res.edges res.popped :=
  (bfs_run fuel [init] [init.to_hash] [] [] [] res (bfsInv_start init) hrun).1

theorem simpleResult_run :
    KlotskiSolver.compute_state_space 40 create_simple_klotski =
      some simpleResult := by decide

theorem swapResult_run :
    KlotskiSolver.compute_state_space 50 twoByTwoSwap = some swapResult := by
  decide

/-!
## Reachability preserves well-formedness, boards, ids and dimensions
-/

theorem reaches_wf {init t : KlotskiState} (hwf : WellFormed init)
    (h : Reaches init t) : WellFormed t := by
  induction h with
  | refl => exact hwf
  | tail _ hbc ih =>
    obtain ⟨pid, dir, hm⟩ := hbc
    exact moves_preserve_invariant _ ih _ hm

theorem step_board_eq {s t : KlotskiState} (hst : stepRel s t) :
    t.board_width = s.board_width ∧ t.board_height = s.board_height := by
  obtain ⟨pid, dir, hm⟩ := hst
  rw [mem_get_possible_moves] at hm
  obtain ⟨p, _, d, _, _, heq⟩ := hm
  have h1 : t = s.movePiece p.id (p.x + d.1) (p.y + d.2.1) :=
    congrArg Prod.fst heq
  rw [h1]
  exact ⟨rfl, rfl⟩

theorem reaches_board_eq {init t : KlotskiState} (h : Reaches init t) :
    t.board_width = init.board_width ∧ t.board_height = init.board_height := by
  induction h with
  | refl => exact ⟨rfl, rfl⟩
  | tail _ hbc ih =>
    have h2 := step_board_eq hbc
    exact ⟨h2.1.trans ih.1, h2.2.trans ih.2⟩

theorem step_idwh_eq {s t : KlotskiState} (hst : stepRel s t) :
    t.pieces.map pieceIdWH = s.pieces.map pieceIdWH := by
  obtain ⟨pid, dir, hm⟩ := hst
  rw [mem_get_possible_moves] at hm
  obtain ⟨p, _, d, _, _, heq⟩ := hm
  have h1 : t = s.movePiece p.id (p.x + d.1) (p.y + d.2.1) :=
    congrArg Prod.fst heq
  rw [h1]
  exact moved_pieces_map_idwh s p.id _ _

theorem reaches_idwh_eq {init t : KlotskiState} (h : Reaches init t) :
    t.pieces.map pieceIdWH = init.pieces.map pieceIdWH := by
  induction h with
  | refl => rfl
  | tail _ hbc ih => exact (step_idwh_eq hbc).trans ih

/-!
## C10: the initial state is the first node
-/

/-- C10: the initial state is the first state popped from the frontier, the
first entry of the insertion-ordered visited table, and therefore the first
entry of the emitted nodes list. -/
theorem c10_first_node_is_initial (init : KlotskiState) (fuel : Nat)
    (res : SolverResult)
    (hrun : KlotskiSolver.compute_state_space fuel init = some res) :
    res.popped.head? = some init.to_hash ∧
    res.visited.head? = some (init.to_hash, init) ∧
    (KlotskiSolver.create_graph_json init res).nodes.head? =
      some ⟨init.to_hash, init.to_position_array⟩ := by
  cases fuel with
  | zero =>
    have hz : KlotskiSolver.compute_state_space 0 init = none := rfl
    rw [hz] at hrun
    cases hrun
  | succ fuel =>
    unfold KlotskiSolver.compute_state_space at hrun
    rw [bfs_cons] at hrun
    have hstep := bfsInv_step (bfsInv_start init)
    obtain ⟨-, hv, hp⟩ := bfs_run fuel _ _ _ _ _ res hstep hrun
    have hins : dictInsert ([] : List (StateKey × KlotskiState))
        init.to_hash init = [(init.to_hash, init)] := rfl
    rw [hins] at hv
    obtain ⟨t1, he1⟩ := hv
    obtain ⟨t2, he2⟩ := hp
    refine ⟨?_, ?_, ?_⟩
    · rw [← he2]
      rfl
    · rw [← he1]
      rfl
    · unfold KlotskiSolver.create_graph_json
      dsimp only
      rw [← he1]
      rfl

theorem c10_witness :
    simpleResult.popped.head? = some create_simple_klotski.to_hash :=
  (c10_first_node_is_initial create_simple_klotski 40 simpleResult
    simpleResult_run).1

/-!
## C9: no safety ceiling, and the output is never partial
-/

/-- C9 (amended): `compute_state_space` has no node/edge safety ceiling and
no `ExplorationLimitExceeded` signal anywhere in the source; whenever its
BFS loop terminates it returns the complete graph: the successor of every
emitted node is itself an emitted node, so the output is never a partial
graph. -/
theorem c9_no_partial_output (init : KlotskiState) (fuel : Nat)
    (res : SolverResult)
    (hrun : KlotskiSolver.compute_state_space fuel init = some res) :
    ∀ kv ∈ res.visited, ∀ m ∈ (Prod.snd kv).get_possible_moves,
      m.1.to_hash ∈ res.visited.map Prod.fst := by
  intro kv hkv m hm
  have hinv := compute_state_space_inv hrun
  rcases hinv.closure kv hkv m hm with hin | hin
  · exact hin
  · cases hin

theorem c9_witness :
    (create_simple_klotski.movePiece 1 2 1).to_hash ∈
      (simpleResult.visited.map Prod.fst) :=
  c9_no_partial_output create_simple_klotski 40 simpleResult simpleResult_run
    (create_simple_klotski.to_hash, create_simple_klotski) (by decide)
    (create_simple_klotski.movePiece 1 2 1, 1, "down") (by decide)

/-- C9 as stated is false on the code: there is no configured safety
ceiling and no abort signal in `compute_state_space`; on the simple puzzle
the exploration exceeds a would-be ceiling of one node and still returns
the full 4-node, 6-edge graph normally instead of aborting. -/
theorem c9_counterexample :
    (KlotskiSolver.compute_state_space 40 create_simple_klotski).map
      (fun r => (r.visited.length, r.edges.length)) = some (4, 6) ∧ 1 < 4 :=
  ⟨by decide, by omega⟩

/-!
## C5: emission order of moves and edges
-/

/-- C5: the move generator emits moves in piece-list order and, within one
piece, in direction order left, right, up, down; and the final edge list is
exactly the concatenation, in expansion order, of each expanded state's
move list mapped to edges. -/
theorem c5_move_and_edge_order (init : KlotskiState) (fuel : Nat)
    (res : SolverResult)
    (hrun : KlotskiSolver.compute_state_space fuel init = some res) :
    (∀ s : KlotskiState, s.get_possible_moves =
      s.pieces.flatMap (fun piece =>
        ([(-1, 0, "left"), (1, 0, "right"), (0, -1, "up"), (0, 1, "down")] :
            List (Int × Int × String)).filterMap (fun d =>
          if s.is_valid_position piece.id (piece.x + d.1) (piece.y + d.2.1)
              piece.width piece.height
          then some (s.movePiece piece.id (piece.x + d.1) (piece.y + d.2.1),
            piece.id, d.2.2)
          else none))) ∧
    res.edges = (res.visited.map (fun kv =>
      (Prod.snd kv).get_possible_moves.map (fun m =>
        Edge.mk (Prod.fst kv) m.1.to_hash m.2.1 m.2.2))).flatten :=
  ⟨fun s => get_possible_moves_eq s, (compute_state_space_inv hrun).etrace⟩

theorem c5_witness :
    simpleResult.edges =
      (simpleResult.visited.map (fun kv =>
        (Prod.snd kv).get_possible_moves.map (fun m =>
          Edge.mk (Prod.fst kv) m.1.to_hash m.2.1 m.2.2))).flatten :=
  (c5_move_and_edge_order create_simple_klotski 40 simpleResult
    simpleResult_run).2

/-!
## Geometry-equivalence: hash-equal well-formed states have hash-equal
successor sets
-/

theorem two_le_countP {α : Type} (P : α → Bool) {l : List α} {a b : α}
    (ha : a ∈ l) (hb : b ∈ l) (hne : a ≠ b) (hPa : P a = true)
    (hPb : P b = true) : 2 ≤ l.countP P := by
  obtain ⟨l1, l2, rfl⟩ := List.append_of_mem ha
  rw [List.countP_append, List.countP_cons, hPa]
  rw [if_pos rfl]
  rcases List.mem_append.mp hb with hbl | hbl
  · have h1 : 0 < List.countP P l1 := List.countP_pos.mpr ⟨b, hbl, hPb⟩
    omega
  · rcases List.mem_cons.mp hbl with heq | hbl
    · exact absurd heq.symm hne
    · have h1 : 0 < List.countP P l2 := List.countP_pos.mpr ⟨b, hbl, hPb⟩
      omega

theorem countP_le_one_of_unique {α : Type} (P : α → Bool) {l : List α}
    (hnd : l.Nodup) (p : α) (huniq : ∀ x ∈ l, P x = true → x = p) :
    l.countP P ≤ 1 := by
  induction l with
  | nil => simp
  | cons a l ih =>
    obtain ⟨hanotin, hndl⟩ := List.nodup_cons.mp hnd
    rw [List.countP_cons]
    by_cases hPa : P a = true
    · have hap : a = p := huniq a (List.mem_cons_self _ _) hPa
      have hzero : List.countP P l = 0 := by
        rw [List.countP_eq_zero]
        intro x hx hPx
        have hxp : x = p := huniq x (List.mem_cons_of_mem _ hx) hPx
        exact hanotin (by rw [hap, ← hxp]; exact hx)
      rw [hzero, hPa]
      simp
    · rw [if_neg hPa]
      have := ih hndl (fun x hx hPx => huniq x (List.mem_cons_of_mem _ hx) hPx)
      omega

/-- Whether a cell lies in the rectangle described by a geometry tuple. -/
def coversG (c : Int × Int) (g : Geom) : Bool :=
  decide (c ∈ rectCells g.1 g.2.1 g.2.2.1 g.2.2.2)

theorem coversG_geom (c : Int × Int) (r : Piece) :
    coversG c r.geom = decide (c ∈ r.get_positions) := rfl

theorem countP_covers_eq_of_perm {c : Int × Int} {l1 l2 : List Piece}
    (hperm : (l1.map Piece.geom).Perm (l2.map Piece.geom)) :
    l1.countP (fun r => decide (c ∈ r.get_positions)) =
      l2.countP (fun r => decide (c ∈ r.get_positions)) := by
  have h1 : ∀ l : List Piece, l.countP (fun r => decide (c ∈ r.get_positions)) =
      (l.map Piece.geom).countP (coversG c) := by
    intro l
    rw [List.countP_map]
    rfl
  rw [h1, h1]
  exact hperm.countP_eq (coversG c)

theorem nodup_pieces_of_idsNodup {l : List Piece}
    (h : (l.map Piece.id).Nodup) : l.Nodup := List.Nodup.of_map Piece.id h

/-- In a well-formed state, if no piece other than `p` covers `c`, then the
number of covering pieces is at most one (namely `p` itself). -/
theorem countP_covers_le_one {s : KlotskiState} (hids : idsNodup s)
    {p : Piece} (hp : p ∈ s.pieces) {c : Int × Int}
    (hclause : ∀ r ∈ s.pieces, r.id ≠ p.id → c ∉ r.get_positions) :
    s.pieces.countP (fun r => decide (c ∈ r.get_positions)) ≤ 1 := by
  refine countP_le_one_of_unique _ (nodup_pieces_of_idsNodup hids) p ?_
  intro x hx hPx
  rw [decide_eq_true_eq] at hPx
  by_contra hxp
  by_cases hxid : x.id = p.id
  · exact hxp (id_eq_of_mem_of_nodup hids hx hp hxid)
  · exact hclause x hx hxid hPx

/-- If additionally `p` does not cover `c`, no piece covers `c`. -/
theorem countP_covers_eq_zero {s : KlotskiState} (hids : idsNodup s)
    {p : Piece} (hp : p ∈ s.pieces) {c : Int × Int}
    (hclause : ∀ r ∈ s.pieces, r.id ≠ p.id → c ∉ r.get_positions)
    (hpc : c ∉ p.get_positions) :
    s.pieces.countP (fun r => decide (c ∈ r.get_positions)) = 0 := by
  rw [List.countP_eq_zero]
  intro x hx hPx
  rw [decide_eq_true_eq] at hPx
  by_cases hxid : x.id = p.id
  · exact absurd hPx ((id_eq_of_mem_of_nodup hids hx hp hxid) ▸ hpc)
  · exact absurd hPx (hclause x hx hxid)

/-- Mapping the move-rebuild over pieces whose id differs from the mover
leaves the geometry tuples unchanged. -/
theorem map_geom_map_rebuild (l : List Piece) (pid nx ny : Int)
    (hne : ∀ r ∈ l, r.id ≠ pid) :
    (l.map (fun p => if p.id == pid
      then (⟨p.id, nx, ny, p.width, p.height⟩ : Piece)
      else ⟨p.id, p.x, p.y, p.width, p.height⟩)).map Piece.geom =
      l.map Piece.geom := by
  induction l with
  | nil => rfl
  | cons a l ih =>
    simp only [List.map_cons]
    rw [if_neg (by simp [hne a (List.mem_cons_self a l)])]
    rw [ih (fun r hr => hne r (List.mem_cons_of_mem a hr))]

/-- Decomposition of the geometry multiset before and after a move: the
moved piece's tuple is replaced in place, all others are untouched. -/
theorem map_geom_movePiece (s : KlotskiState) (p : Piece) (hp : p ∈ s.pieces)
    (hids : idsNodup s) (nx ny : Int) :
    ∃ A1 A2 : List Geom,
      s.pieces.map Piece.geom = A1 ++ p.geom :: A2 ∧
      (s.movePiece p.id nx ny).pieces.map Piece.geom =
        A1 ++ (nx, ny, p.width, p.height) :: A2 := by
  obtain ⟨l1, l2, hdecomp⟩ := List.append_of_mem hp
  have hidl : p.id ∉ l1.map Piece.id ∧ p.id ∉ l2.map Piece.id := by
    have h0 := hids
    unfold idsNodup at h0
    rw [hdecomp, List.map_append, List.map_cons, List.nodup_append] at h0
    obtain ⟨h1, h2, h3⟩ := h0
    exact ⟨fun hmem => (List.disjoint_left.mp h3) hmem
      (List.mem_cons_self _ _), (List.nodup_cons.mp h2).1⟩
  have hne1 : ∀ r ∈ l1, r.id ≠ p.id := by
    intro r hr hcon
    exact hidl.1 (hcon ▸ List.mem_map_of_mem Piece.id hr)
  have hne2 : ∀ r ∈ l2, r.id ≠ p.id := by
    intro r hr hcon
    exact hidl.2 (hcon ▸ List.mem_map_of_mem Piece.id hr)
  refine ⟨l1.map Piece.geom, l2.map Piece.geom, ?_, ?_⟩
  · rw [hdecomp, List.map_append, List.map_cons]
  · unfold KlotskiState.movePiece
    dsimp only
    rw [hdecomp]
    rw [List.map_append]
    rw [List.map_cons]
    rw [List.map_append]
    rw [List.map_cons]
    rw [map_geom_map_rebuild l1 p.id nx ny hne1]
    rw [map_geom_map_rebuild l2 p.id nx ny hne2]
    rw [if_pos (by simp : (p.id == p.id) = true)]
    rfl

/-- Hash-equal well-formed states over equal boards offer, for every move of
the one, a move of the other with the same successor fingerprint. -/
theorem succ_hash_transfer {s t : KlotskiState}
    (hws : WellFormed s) (hwt : WellFormed t)
    (hbw : s.board_width = t.board_width)
    (hbh : s.board_height = t.board_height)
    (hh : s.to_tuple = t.to_tuple) :
    ∀ m ∈ s.get_possible_moves, ∃ m2 ∈ t.get_possible_moves,
      m2.1.to_hash = m.1.to_hash := by
  obtain ⟨hids_s, hbnd_s, hdisj_s⟩ := hws
  obtain ⟨hids_t, hbnd_t, hdisj_t⟩ := hwt
  intro m hm
  rw [mem_get_possible_moves] at hm
  obtain ⟨p, hp, d, hd, hv, rfl⟩ := hm
  have hperm : (s.pieces.map Piece.geom).Perm (t.pieces.map Piece.geom) :=
    (to_tuple_eq_iff_perm s t).mp hh
  have hmemq : p.geom ∈ t.pieces.map Piece.geom :=
    hperm.mem_iff.mp (List.mem_map_of_mem Piece.geom hp)
  obtain ⟨q, hq, hgeom⟩ := List.mem_map.mp hmemq
  obtain ⟨hq1, hq2, hq3, hq4⟩ :
      q.x = p.x ∧ q.y = p.y ∧ q.width = p.width ∧ q.height = p.height := by
    have h0 := hgeom
    unfold Piece.geom at h0
    simp only [Prod.mk.injEq] at h0
    exact ⟨h0.1, h0.2.1, h0.2.2.1, h0.2.2.2⟩
  rw [is_valid_position_iff s hdisj_s] at hv
  obtain ⟨hv1, hv2, hv3, hv4, hv5⟩ := hv
  have hvt : t.is_valid_position q.id (q.x + d.1) (q.y + d.2.1) q.width
      q.height = true := by
    rw [is_valid_position_iff t hdisj_t]
    refine ⟨by omega, by omega, by omega, by omega, ?_⟩
    intro c hc r hr hrid hcr
    rw [hq1, hq2, hq3, hq4] at hc
    by_cases hcp : c ∈ p.get_positions
    · have hcq : c ∈ q.get_positions := by
        rw [get_positions_eq_rectCells, hq1, hq2, hq3, hq4,
          ← get_positions_eq_rectCells]
        exact hcp
      have hrq : r ≠ q := fun hcon => hrid (by rw [hcon])
      have h2 : 2 ≤ t.pieces.countP (fun r2 => decide (c ∈ r2.get_positions)) :=
        two_le_countP _ hr hq hrq (by simp [hcr]) (by simp [hcq])
      have h1 : s.pieces.countP (fun r2 => decide (c ∈ r2.get_positions)) ≤ 1 :=
        countP_covers_le_one hids_s hp (fun r2 hr2 hne2 => hv5 c hc r2 hr2 hne2)
      rw [countP_covers_eq_of_perm hperm] at h1
      omega
    · have h0 : s.pieces.countP (fun r2 => decide (c ∈ r2.get_positions)) = 0 :=
        countP_covers_eq_zero hids_s hp
          (fun r2 hr2 hne2 => hv5 c hc r2 hr2 hne2) hcp
      have h1 : 0 < t.pieces.countP (fun r2 => decide (c ∈ r2.get_positions)) :=
        List.countP_pos.mpr ⟨r, hr, by simp [hcr]⟩
      rw [countP_covers_eq_of_perm hperm] at h0
      omega
  have hm2 : (t.movePiece q.id (q.x + d.1) (q.y + d.2.1), q.id, d.2.2) ∈
      t.get_possible_moves := by
    rw [mem_get_possible_moves]
    exact ⟨q, hq, d, hd, hvt, rfl⟩
  refine ⟨_, hm2, ?_⟩
  dsimp only
  unfold KlotskiState.to_hash
  apply (to_tuple_eq_iff_perm _ _).mpr
  obtain ⟨A1, A2, hsa, hsb⟩ :=
    map_geom_movePiece s p hp hids_s (p.x + d.1) (p.y + d.2.1)
  obtain ⟨B1, B2, hta, htb⟩ :=
    map_geom_movePiece t q hq hids_t (q.x + d.1) (q.y + d.2.1)
  rw [hsb, htb, hq1, hq2, hq3, hq4]
  have hp2 : (A1 ++ p.geom :: A2).Perm (B1 ++ p.geom :: B2) := by
    rw [← hsa]
    rw [show B1 ++ p.geom :: B2 = t.pieces.map Piece.geom from by
      rw [hta, hgeom]]
    exact hperm
  have hcore : (A1 ++ A2).Perm (B1 ++ B2) :=
    ((List.perm_middle.symm.trans hp2).trans List.perm_middle).cons_inv
  exact List.perm_middle.trans (((hcore.symm).cons _).trans List.perm_middle.symm)

/-- C1: when `compute_state_space` terminates, every state reachable from
the initial state by legal moves appears (exactly once — the fingerprint
list has no repeats) in the visited table, no state is expanded twice (the
expansion log has no repeats), and every edge's source and target
fingerprints are among the emitted node fingerprints. -/
theorem c1_bfs_graph_correct (init : KlotskiState) (fuel : Nat)
    (res : SolverResult) (hwf : WellFormed init)
    (hrun : KlotskiSolver.compute_state_space fuel init = some res) :
    (∀ s, Reaches init s → s.to_hash ∈ res.visited.map Prod.fst) ∧
    (res.visited.map Prod.fst).Nodup ∧
    res.popped.Nodup ∧
    (∀ e ∈ res.edges, e.source ∈ res.visited.map Prod.fst ∧
      e.target ∈ res.visited.map Prod.fst) := by
  have hinv := compute_state_space_inv hrun
  have hcomplete : ∀ s, Reaches init s →
      s.to_hash ∈ res.visited.map Prod.fst := by
    intro s hs
    induction hs with
    | refl =>
      rcases hinv.init_mem with h | h
      · exact h
      · cases h
    | @tail b c hab hbc ih =>
      obtain ⟨kv, hkv, hkey⟩ := List.mem_map.mp ih
      have hkvhash : kv.2.to_hash = b.to_hash := by
        rw [← hinv.vhash kv hkv, hkey]
      have hkv_reach := hinv.vreach kv hkv
      have hwb : WellFormed b := reaches_wf hwf hab
      have hwkv : WellFormed kv.2 := reaches_wf hwf hkv_reach
      have hbb := reaches_board_eq hab
      have hbk := reaches_board_eq hkv_reach
      obtain ⟨pid, dir, hmov⟩ := hbc
      obtain ⟨m2, hm2, hh2⟩ := succ_hash_transfer hwb hwkv
        (hbb.1.trans hbk.1.symm) (hbb.2.trans hbk.2.symm)
        hkvhash.symm (c, pid, dir) hmov
      rcases hinv.closure kv hkv m2 hm2 with h | h
      · exact hh2 ▸ h
      · cases h
  refine ⟨hcomplete, hinv.keys_nodup, ?_, ?_⟩
  · rw [← hinv.keys_popped]
    exact hinv.keys_nodup
  · intro e he
    rw [hinv.etrace] at he
    obtain ⟨blk, hblk, heblk⟩ := List.mem_flatten.mp he
    obtain ⟨kv, hkv, rfl⟩ := List.mem_map.mp hblk
    obtain ⟨m, hm, rfl⟩ := List.mem_map.mp heblk
    refine ⟨List.mem_map_of_mem Prod.fst hkv, ?_⟩
    rcases hinv.closure kv hkv m hm with h | h
    · exact h
    · cases h

theorem c1_witness :
    create_simple_klotski.to_hash ∈ simpleResult.visited.map Prod.fst :=
  (c1_bfs_graph_correct create_simple_klotski 40 simpleResult (by decide)
    simpleResult_run).1 create_simple_klotski Relation.ReflTransGen.refl

/-!
## Sorting by id: alignment lemmas for the position arrays
-/

theorem sortedGeoms_eq_of_perm {l1 l2 : List Geom} (h : l1.Perm l2) :
    l1.mergeSort tupLe = l2.mergeSort tupLe :=
  List.eq_of_perm_of_sorted
    ((List.mergeSort_perm l1 tupLe).trans
      (h.trans (List.mergeSort_perm l2 tupLe).symm))
    (List.sorted_mergeSort tupLe_trans (fun a b => tupLe_total a b) l1)
    (List.sorted_mergeSort tupLe_trans (fun a b => tupLe_total a b) l2)

theorem sortPiecesById_perm (l : List Piece) : (sortPiecesById l).Perm l :=
  List.mergeSort_perm l _

theorem sortPiecesById_sorted (l : List Piece) :
    List.Pairwise (fun p q : Piece => p.id ≤ q.id) (sortPiecesById l) := by
  have h := @List.sorted_mergeSort Piece
    (fun p q : Piece => decide (p.id ≤ q.id))
    (fun a b c h1 h2 => by
      simp only [decide_eq_true_eq] at h1 h2 ⊢
      omega)
    (fun a b => by
      simp only [Bool.or_eq_true, decide_eq_true_eq]
      omega) l
  exact h.imp (fun h2 => by simpa using h2)

theorem sortPiecesById_strict (l : List Piece)
    (hnd : (l.map Piece.id).Nodup) :
    List.Pairwise (fun p q : Piece => p.id < q.id) (sortPiecesById l) := by
  have hsorted := sortPiecesById_sorted l
  have hnd2 : ((sortPiecesById l).map Piece.id).Nodup :=
    ((sortPiecesById_perm l).map Piece.id).nodup_iff.mpr hnd
  have hne : List.Pairwise (fun p q : Piece => p.id ≠ q.id)
      (sortPiecesById l) := List.pairwise_map.mp hnd2
  exact (hsorted.and hne).imp (fun h => lt_of_le_of_ne h.1 h.2)

theorem map_id_eq_of_map_idwh_eq {l1 l2 : List Piece}
    (h : l1.map pieceIdWH = l2.map pieceIdWH) :
    l1.map Piece.id = l2.map Piece.id := by
  have h1 : ∀ l : List Piece,
      l.map Piece.id = (l.map pieceIdWH).map Prod.fst := by
    intro l
    rw [List.map_map]
    rfl
  rw [h1, h1, h]

theorem sortById_map_idwh_eq {l1 l2 : List Piece}
    (h : l1.map pieceIdWH = l2.map pieceIdWH)
    (hnd : (l1.map Piece.id).Nodup) :
    (sortPiecesById l1).map pieceIdWH = (sortPiecesById l2).map pieceIdWH := by
  have hnd2 : (l2.map Piece.id).Nodup := by
    rw [← map_id_eq_of_map_idwh_eq h]
    exact hnd
  haveI : IsAntisymm (Int × Int × Int) (fun a b => a.1 < b.1) :=
    ⟨fun a b h1 h2 => absurd (lt_trans h1 h2) (lt_irrefl _)⟩
  refine List.eq_of_perm_of_sorted (r := fun a b : Int × Int × Int => a.1 < b.1)
    ?_ ?_ ?_
  · exact ((sortPiecesById_perm l1).map pieceIdWH).trans
      (h ▸ ((sortPiecesById_perm l2).map pieceIdWH).symm)
  · exact List.pairwise_map.mpr ((sortPiecesById_strict l1 hnd).imp (fun h2 => h2))
  · exact List.pairwise_map.mpr ((sortPiecesById_strict l2 hnd2).imp (fun h2 => h2))

theorem sortById_map_comm (l : List Piece) (f : Piece → Piece)
    (hid : ∀ p, (f p).id = p.id) (hnd : (l.map Piece.id).Nodup) :
    sortPiecesById (l.map f) = (sortPiecesById l).map f := by
  haveI : IsAntisymm Piece (fun a b : Piece => a.id < b.id) :=
    ⟨fun a b h1 h2 => absurd (lt_trans h1 h2) (lt_irrefl _)⟩
  have hmapid : (l.map f).map Piece.id = l.map Piece.id := by
    rw [List.map_map]
    apply List.map_congr_left
    intro p _
    exact hid p
  refine List.eq_of_perm_of_sorted (r := fun a b : Piece => a.id < b.id)
    ?_ ?_ ?_
  · exact (sortPiecesById_perm (l.map f)).trans
      (((sortPiecesById_perm l).map f).symm)
  · exact sortPiecesById_strict (l.map f) (by rw [hmapid]; exact hnd)
  · exact List.Pairwise.map f (fun a b hab => by rw [hid a, hid b]; exact hab)
      (sortPiecesById_strict l hnd)

theorem to_position_array_movePiece (s : KlotskiState) (p : Piece)
    (hp : p ∈ s.pieces) (hids : idsNodup s) (nx ny : Int) :
    (s.movePiece p.id nx ny).to_position_array =
      (sortPiecesById s.pieces).map
        (fun q => if q.id == p.id then (nx, ny) else (q.x, q.y)) := by
  unfold KlotskiState.to_position_array KlotskiState.movePiece
  dsimp only
  rw [sortById_map_comm s.pieces _ (fun q => by
    split_ifs <;> rfl) hids]
  rw [List.map_map]
  apply List.map_congr_left
  intro q _
  by_cases h : q.id = p.id
  · simp only [Function.comp_apply, if_pos (by simp [h] : (q.id == p.id) = true)]
  · simp only [Function.comp_apply, if_neg (by simp [h] : ¬(q.id == p.id) = true)]

theorem replayPositions_aligned (A B : List Piece)
    (hid : A.map Piece.id = B.map Piece.id) (pid : Int) (dname : String) :
    replayPositions (A.map (fun p => (⟨p.id, p.width, p.height⟩ : PieceDef)))
      (B.map (fun p => (p.x, p.y))) pid dname =
      B.map (fun q => if q.id == pid
        then (q.x + (dirDelta dname).1, q.y + (dirDelta dname).2)
        else (q.x, q.y)) := by
  induction A generalizing B with
  | nil =>
    cases B with
    | nil => rfl
    | cons b B => cases hid
  | cons a A ih =>
    cases B with
    | nil => cases hid
    | cons b B =>
      rw [List.map_cons, List.map_cons] at hid
      have hid1 : a.id = b.id := by
        injection hid
      have hid2 : A.map Piece.id = B.map Piece.id := by
        injection hid
      unfold replayPositions at ih ⊢
      simp only [List.map_cons, List.zip_cons_cons]
      rw [hid1, ih B hid2]

theorem zip_geom_eq (A B : List Piece)
    (hw : A.map pieceIdWH = B.map pieceIdWH) :
    ((A.map (fun p => (⟨p.id, p.width, p.height⟩ : PieceDef))).zip
      (B.map (fun p => (p.x, p.y)))).map
      (fun pp => (pp.2.1, pp.2.2, pp.1.width, pp.1.height)) =
      B.map Piece.geom := by
  induction A generalizing B with
  | nil =>
    cases B with
    | nil => rfl
    | cons b B => cases hw
  | cons a A ih =>
    cases B with
    | nil => cases hw
    | cons b B =>
      rw [List.map_cons, List.map_cons] at hw
      have hw1 : pieceIdWH a = pieceIdWH b := by
        injection hw
      have hw2 : A.map pieceIdWH = B.map pieceIdWH := by
        injection hw
      obtain ⟨hwi, hww, hwh⟩ : a.id = b.id ∧ a.width = b.width ∧
          a.height = b.height := by
        unfold pieceIdWH at hw1
        simp only [Prod.mk.injEq] at hw1
        exact ⟨hw1.1, hw1.2.1, hw1.2.2⟩
      simp only [List.map_cons, List.zip_cons_cons]
      congr 1
      · unfold Piece.geom
        rw [hww, hwh]
      · exact ih B hw2

theorem reaches_ids_eq {init t : KlotskiState} (h : Reaches init t) :
    t.pieces.map Piece.id = init.pieces.map Piece.id :=
  map_id_eq_of_map_idwh_eq (reaches_idwh_eq h)

theorem dirDelta_of_mem {d : Int × Int × String} (hd : d ∈ directions) :
    dirDelta d.2.2 = (d.1, d.2.1) := by
  fin_cases hd <;> rfl

theorem find_node_map {l : List (StateKey × KlotskiState)}
    (hnd : (l.map Prod.fst).Nodup) {kv : StateKey × KlotskiState}
    (hkv : kv ∈ l) :
    (l.map (fun kv2 => (⟨kv2.1, kv2.2.to_position_array⟩ : NodeJson))).find?
      (fun n => n.id == kv.1) =
      some ⟨kv.1, kv.2.to_position_array⟩ := by
  induction l with
  | nil => cases hkv
  | cons a l ih =>
    rw [List.map_cons] at hnd
    obtain ⟨hn1, hn2⟩ := List.nodup_cons.mp hnd
    rcases List.mem_cons.mp hkv with rfl | hkv2
    · rw [List.map_cons, List.find?_cons_of_pos _ (by simp)]
    · rw [List.map_cons, List.find?_cons_of_neg _ ?_]
      · exact ih hn2 hkv2
      · simp only [beq_iff_eq]
        intro hcon
        exact hn1 (hcon ▸ List.mem_map_of_mem Prod.fst hkv2)

theorem nodeGeoms_sorted_eq_to_tuple (init s : KlotskiState)
    (hidwh : s.pieces.map pieceIdWH = init.pieces.map pieceIdWH)
    (hids : (s.pieces.map Piece.id).Nodup) :
    (nodeGeoms ((sortPiecesById init.pieces).map
        (fun p => (⟨p.id, p.width, p.height⟩ : PieceDef)))
      s.to_position_array).mergeSort tupLe = s.to_tuple := by
  unfold nodeGeoms KlotskiState.to_position_array KlotskiState.to_tuple
  rw [zip_geom_eq (sortPiecesById init.pieces) (sortPiecesById s.pieces)
    (sortById_map_idwh_eq hidwh hids).symm]
  exact sortedGeoms_eq_of_perm ((sortPiecesById_perm s.pieces).map Piece.geom)

/-- C2 (amended): for every recorded edge there are emitted source and
target nodes carrying the edge's fingerprints, and replaying the recorded
move on the source node's position array yields the target node's
fingerprint: paired with the piece dimensions and canonically sorted, the
replayed positions equal the target node's sorted geometry.  (The raw
position arrays themselves may differ entry-for-entry when distinct pieces
share a shape — see the counterexample.) -/
theorem c2_replay_matches_target_fingerprint (init : KlotskiState)
    (fuel : Nat) (res : SolverResult) (hids : idsNodup init)
    (hrun : KlotskiSolver.compute_state_space fuel init = some res) :
    ∀ e ∈ (KlotskiSolver.create_graph_json init res).edges,
      ∃ ns nt : NodeJson,
        findNode (KlotskiSolver.create_graph_json init res) e.source =
          some ns ∧
        findNode (KlotskiSolver.create_graph_json init res) e.target =
          some nt ∧
        (nodeGeoms (KlotskiSolver.create_graph_json init res).pieces
          (replayPositions (KlotskiSolver.create_graph_json init res).pieces
            ns.positions e.piece_id e.direction)).mergeSort tupLe =
        (nodeGeoms (KlotskiSolver.create_graph_json init res).pieces
          nt.positions).mergeSort tupLe := by
  have hinv := compute_state_space_inv hrun
  intro e he
  have hedges : (KlotskiSolver.create_graph_json init res).edges =
      res.edges := rfl
  rw [hedges, hinv.etrace] at he
  obtain ⟨blk, hblk, heblk⟩ := List.mem_flatten.mp he
  obtain ⟨kv, hkv, rfl⟩ := List.mem_map.mp hblk
  obtain ⟨m, hm, rfl⟩ := List.mem_map.mp heblk
  have hm0 := hm
  have htgt : m.1.to_hash ∈ res.visited.map Prod.fst := by
    rcases hinv.closure kv hkv m hm with h | h
    · exact h
    · cases h
  obtain ⟨kv2, hkv2, hkey2⟩ := List.mem_map.mp htgt
  have hnodes : (KlotskiSolver.create_graph_json init res).nodes =
      res.visited.map (fun kv2 =>
        (⟨kv2.1, kv2.2.to_position_array⟩ : NodeJson)) := rfl
  refine ⟨⟨kv.1, kv.2.to_position_array⟩, ⟨kv2.1, kv2.2.to_position_array⟩,
    ?_, ?_, ?_⟩
  · unfold findNode
    rw [hnodes]
    exact find_node_map hinv.keys_nodup hkv
  · unfold findNode
    rw [hnodes]
    dsimp only
    rw [← hkey2]
    exact find_node_map hinv.keys_nodup hkv2
  · dsimp only
    have hpieces : (KlotskiSolver.create_graph_json init res).pieces =
        (sortPiecesById init.pieces).map
          (fun p => (⟨p.id, p.width, p.height⟩ : PieceDef)) := rfl
    rw [hpieces]
    rw [mem_get_possible_moves] at hm
    obtain ⟨p, hp, d, hd, hv, rfl⟩ := hm
    dsimp only
    have hreach_kv : Reaches init kv.2 := hinv.vreach kv hkv
    have hreach_m : Reaches init
        (kv.2.movePiece p.id (p.x + d.1) (p.y + d.2.1)) :=
      Relation.ReflTransGen.tail hreach_kv ⟨p.id, d.2.2, hm0⟩
    have hids_kv : (kv.2.pieces.map Piece.id).Nodup := by
      rw [reaches_ids_eq hreach_kv]
      exact hids
    have hid_align : (sortPiecesById init.pieces).map Piece.id =
        (sortPiecesById kv.2.pieces).map Piece.id :=
      map_id_eq_of_map_idwh_eq
        (sortById_map_idwh_eq (reaches_idwh_eq hreach_kv) hids_kv).symm
    have hkvhash : Prod.fst kv = kv.2.to_hash := hinv.vhash kv hkv
    have hkv2hash : Prod.fst kv2 = kv2.2.to_hash := hinv.vhash kv2 hkv2
    have hstep1 : replayPositions ((sortPiecesById init.pieces).map
          (fun p => (⟨p.id, p.width, p.height⟩ : PieceDef)))
        kv.2.to_position_array p.id d.2.2 =
        (sortPiecesById kv.2.pieces).map (fun q => if q.id == p.id
          then (q.x + d.1, q.y + d.2.1) else (q.x, q.y)) := by
      have h1 := replayPositions_aligned (sortPiecesById init.pieces)
        (sortPiecesById kv.2.pieces) hid_align p.id d.2.2
      rw [dirDelta_of_mem hd] at h1
      exact h1
    have hstep2 : (sortPiecesById kv.2.pieces).map (fun q => if q.id == p.id
          then (q.x + d.1, q.y + d.2.1) else (q.x, q.y)) =
        (kv.2.movePiece p.id (p.x + d.1) (p.y + d.2.1)).to_position_array := by
      rw [to_position_array_movePiece kv.2 p hp hids_kv]
      apply List.map_congr_left
      intro q hq
      by_cases h : q.id = p.id
      · have hqp : q = p := id_eq_of_mem_of_nodup hids_kv
          ((sortPiecesById_perm kv.2.pieces).mem_iff.mp hq) hp h
        rw [if_pos (by simp [h]), if_pos (by simp [h]), hqp]
      · rw [if_neg (by simp [h]), if_neg (by simp [h])]
    rw [hstep1, hstep2]
    rw [nodeGeoms_sorted_eq_to_tuple init _ (reaches_idwh_eq hreach_m)
      (by rw [reaches_ids_eq hreach_m]; exact hids)]
    rw [nodeGeoms_sorted_eq_to_tuple init kv2.2
      (reaches_idwh_eq (hinv.vreach kv2 hkv2))
      (by rw [reaches_ids_eq (hinv.vreach kv2 hkv2)]; exact hids)]
    show (kv.2.movePiece p.id (p.x + d.1) (p.y + d.2.1)).to_hash =
      kv2.2.to_hash
    rw [← hkv2hash, hkey2]

/-- C2 as stated is false on the code: on the 2x2 puzzle with two
interchangeable 1x1 pieces, the finished graph has an edge whose recorded
move, replayed on the source node's position array, does not reproduce the
target node's position array entry-for-entry (the stored target assigns the
swapped positions to the other piece ids). -/
theorem c2_counterexample : c2Holds swapGraph = false := by decide

theorem c2_witness :
    (findNode (KlotskiSolver.create_graph_json twoByTwoSwap swapResult)
      ((KlotskiSolver.create_graph_json twoByTwoSwap swapResult).edges.getD 0
        ⟨[], [], 0, ""⟩).source).isSome = true := by
  obtain ⟨ns, nt, h1, h2, h3⟩ :=
    c2_replay_matches_target_fingerprint twoByTwoSwap 50 swapResult
      (by decide) swapResult_run
      ((KlotskiSolver.create_graph_json twoByTwoSwap swapResult).edges.getD 0
        ⟨[], [], 0, ""⟩) (by decide)
  rw [h1]
  rfl

/-!
## Reading back from a concatenated byte stream
-/

theorem getU8_concat (pre post : List Nat) (b : Nat) :
    getU8 (pre ++ b :: post) pre.length = .ok b := by
  unfold getU8
  rw [List.get?_append_right (le_refl _), Nat.sub_self]
  rfl

theorem getU8_at (buf : List Nat) (pre post : List Nat) (b : Nat) (k : Nat)
    (hbuf : buf = pre ++ b :: post) (hk : k = pre.length) :
    getU8 buf k = .ok b := by
  subst hbuf
  subst hk
  exact getU8_concat pre post b

theorem getU16_concat (pre post : List Nat) (b0 b1 : Nat) :
    getU16 (pre ++ b0 :: b1 :: post) pre.length = .ok (b0 + 256 * b1) := by
  unfold getU16
  rw [getU8_concat pre (b1 :: post) b0]
  rw [getU8_at (pre ++ b0 :: b1 :: post) (pre ++ [b0]) post b1
    (pre.length + 1) (by simp) (by simp)]
  rfl

theorem getU32_concat (pre post : List Nat) (b0 b1 b2 b3 : Nat) :
    getU32 (pre ++ b0 :: b1 :: b2 :: b3 :: post) pre.length =
      .ok (b0 + 256 * b1 + 65536 * b2 + 16777216 * b3) := by
  unfold getU32
  rw [getU8_concat pre (b1 :: b2 :: b3 :: post) b0]
  rw [getU8_at (pre ++ b0 :: b1 :: b2 :: b3 :: post) (pre ++ [b0])
    (b2 :: b3 :: post) b1 (pre.length + 1) (by simp) (by simp)]
  rw [getU8_at (pre ++ b0 :: b1 :: b2 :: b3 :: post) (pre ++ [b0, b1])
    (b3 :: post) b2 (pre.length + 2) (by simp) (by simp)]
  rw [getU8_at (pre ++ b0 :: b1 :: b2 :: b3 :: post) (pre ++ [b0, b1, b2])
    post b3 (pre.length + 3) (by simp) (by simp)]
  rfl

theorem getBytes_concat (pre mid post : List Nat) :
    getBytes (pre ++ (mid ++ post)) pre.length mid.length = .ok mid := by
  unfold getBytes
  rw [if_pos (by
    rw [List.length_append, List.length_append]
    omega)]
  rw [List.drop_left pre (mid ++ post), List.take_left]

theorem getU16_le16 (pre post : List Nat) (n : Nat) (h : n < 65536) :
    getU16 (pre ++ (le16 n ++ post)) pre.length = .ok n := by
  have h1 := getU16_concat pre post (n % 256) (n / 256 % 256)
  rw [show pre ++ (n % 256) :: (n / 256 % 256) :: post =
    pre ++ (le16 n ++ post) from rfl] at h1
  rw [h1]
  congr 1
  omega

theorem getU32_le32 (pre post : List Nat) (n : Nat) (h : n < 4294967296) :
    getU32 (pre ++ (le32 n ++ post)) pre.length = .ok n := by
  have h1 := getU32_concat pre post (n % 256) (n / 256 % 256)
    (n / 65536 % 256) (n / 16777216 % 256)
  rw [show pre ++ (n % 256) :: (n / 256 % 256) :: (n / 65536 % 256) ::
    (n / 16777216 % 256) :: post = pre ++ (le32 n ++ post) from rfl] at h1
  rw [h1]
  congr 1
  omega

theorem getI16_le16i (pre post : List Nat) (i : Int)
    (h1 : -32768 ≤ i) (h2 : i ≤ 32767) :
    getI16 (pre ++ (le16i i ++ post)) pre.length = .ok i := by
  unfold getI16 le16i
  rw [getU16_le16 pre post ((i % 65536).toNat) (by omega)]
  show Except.ok (if 32768 ≤ (i % 65536).toNat then
    (((i % 65536).toNat : Int)) - 65536 else (((i % 65536).toNat : Int))) = _
  congr 1
  split_ifs with hc <;> omega

/-- Reading back a uniformly-sized encoded section item by item. -/
theorem parseItems_flatMap {α β : Type} (buf : List Nat)
    (enc : α → List Nat) (readOne : Nat → Except String β) (dec : α → β)
    (size : Nat) (items : List α)
    (henc : ∀ x ∈ items, (enc x).length = size) :
    ∀ (pre post : List Nat),
      buf = pre ++ (items.flatMap enc ++ post) →
      (∀ x pre2 post2, x ∈ items → buf = pre2 ++ (enc x ++ post2) →
        readOne pre2.length = .ok (dec x)) →
      parseItems items.length readOne pre.length size = .ok (items.map dec) := by
  induction items with
  | nil =>
    intro pre post _ _
    rfl
  | cons x items ih =>
    intro pre post hbuf hread
    show parseItems (items.length + 1) readOne pre.length size = _
    unfold parseItems
    rw [hread x pre (items.flatMap enc ++ post) (List.mem_cons_self _ _)
      (by rw [hbuf]; simp [List.append_assoc])]
    rw [show pre.length + size = (pre ++ enc x).length by
      simp [henc x (List.mem_cons_self _ _)]]
    rw [ih (fun y hy => henc y (List.mem_cons_of_mem _ hy)) (pre ++ enc x) post
      (by rw [hbuf]; simp [List.append_assoc])
      (fun y p2 q2 hy hb => hread y p2 q2 (List.mem_cons_of_mem _ hy) hb)]
    rfl

theorem readPair_at (buf pre post : List Nat) (a b : Nat)
    (hbuf : buf = pre ++ ([a, b] ++ post)) :
    (do
      let w ← getU8 buf pre.length
      let h ← getU8 buf (pre.length + 1)
      pure (w, h) : Except String (Nat × Nat)) = .ok (a, b) := by
  rw [getU8_at buf pre (b :: post) a pre.length (by rw [hbuf]; simp) rfl]
  rw [getU8_at buf (pre ++ [a]) post b (pre.length + 1)
    (by rw [hbuf]; simp) (by simp)]
  rfl

/-- Parsing the pieces section reproduces the piece list. -/
theorem parse_pieces_section (buf : List Nat) (ps : List (Nat × Nat))
    (pre post : List Nat)
    (hbuf : buf = pre ++ (ps.flatMap (fun wh => [wh.1 % 256, wh.2 % 256]) ++ post))
    (hps : ∀ p ∈ ps, p.1 < 256 ∧ p.2 < 256) :
    parseItems ps.length (fun o => do
      let w ← getU8 buf o
      let h ← getU8 buf (o + 1)
      pure (w, h)) pre.length 2 = .ok ps := by
  have h := parseItems_flatMap buf (fun wh => [wh.1 % 256, wh.2 % 256])
    (fun o => do
      let w ← getU8 buf o
      let h ← getU8 buf (o + 1)
      pure (w, h))
    (fun wh => (wh.1 % 256, wh.2 % 256)) 2 ps (fun x _ => rfl) pre post hbuf
    (fun x p2 q2 _ hb => readPair_at buf p2 q2 (x.1 % 256) (x.2 % 256) hb)
  rw [h]
  congr 1
  rw [show ps.map (fun wh => (wh.1 % 256, wh.2 % 256)) = ps from ?_]
  apply List.map_congr_left ?_ |>.trans (List.map_id ps)
  intro p hp
  obtain ⟨h1, h2⟩ := hps p hp
  obtain ⟨pa, pb⟩ := p
  simp only [Nat.mod_eq_of_lt h1, Nat.mod_eq_of_lt h2]
  rfl

/-- Parsing the node-id section reproduces the fingerprints in order. -/
theorem parse_ids_section (buf : List Nat) (nodes : List PackNode)
    (pre post : List Nat)
    (hbuf : buf = pre ++ (nodes.flatMap (fun n => n.id) ++ post))
    (hlen : ∀ n ∈ nodes, n.id.length = 16) :
    parseItems nodes.length (fun o => getBytes buf o 16) pre.length 16 =
      .ok (nodes.map (fun n => n.id)) := by
  refine parseItems_flatMap buf (fun n => n.id) (fun o => getBytes buf o 16)
    (fun n => n.id) 16 nodes hlen pre post hbuf ?_
  intro x p2 q2 hx hb
  have h := getBytes_concat p2 x.id q2
  rw [← hb] at h
  rw [hlen x hx] at h
  exact h

/-- Parsing one node's per-piece positions row. -/
theorem parse_positions_row (buf : List Nat) (pos : List (Nat × Nat))
    (pre post : List Nat)
    (hbuf : buf = pre ++ (pos.flatMap (fun xy => [xy.1 % 256, xy.2 % 256]) ++ post))
    (hv : ∀ p ∈ pos, p.1 < 256 ∧ p.2 < 256) :
    parseItems pos.length (fun o2 => do
      let x ← getU8 buf o2
      let y ← getU8 buf (o2 + 1)
      pure (x, y)) pre.length 2 = .ok pos :=
  parse_pieces_section buf pos pre post hbuf hv

/-- Parsing the node-positions section reproduces every position row. -/
theorem parse_positions_section (buf : List Nat) (nodes : List PackNode)
    (pc : Nat) (pre post : List Nat)
    (hbuf : buf = pre ++ (nodes.flatMap (fun n =>
      n.positions.flatMap (fun xy => [xy.1 % 256, xy.2 % 256])) ++ post))
    (hrow : ∀ n ∈ nodes, n.positions.length = pc)
    (hv : ∀ n ∈ nodes, ∀ p ∈ n.positions, p.1 < 256 ∧ p.2 < 256) :
    parseItems nodes.length (fun o =>
      parseItems pc (fun o2 => do
        let x ← getU8 buf o2
        let y ← getU8 buf (o2 + 1)
        pure (x, y)) o 2) pre.length (2 * pc) =
      .ok (nodes.map (fun n => n.positions)) := by
  refine parseItems_flatMap buf
    (fun n => n.positions.flatMap (fun xy => [xy.1 % 256, xy.2 % 256]))
    (fun o => parseItems pc (fun o2 => do
      let x ← getU8 buf o2
      let y ← getU8 buf (o2 + 1)
      pure (x, y)) o 2)
    (fun n => n.positions) (2 * pc) nodes ?_ pre post hbuf ?_
  · intro n hn
    rw [List.length_flatMap]
    have h2 : ∀ (l : List (Nat × Nat)),
        (l.map (List.length ∘ fun xy =>
          ([xy.1 % 256, xy.2 % 256] : List Nat))).sum = 2 * l.length := by
      intro l
      induction l with
      | nil => rfl
      | cons x xs ih =>
        simp only [List.map_cons, List.sum_cons, ih, List.length_cons,
          Function.comp_apply, List.length_cons, List.length_nil]
        omega
    rw [h2, hrow n hn]
  · intro n p2 q2 hn hb
    rw [← hrow n hn]
    exact parse_positions_row buf n.positions p2 q2 hb (hv n hn)

theorem getU32_at (buf pre post : List Nat) (n : Nat) (k : Nat)
    (h : n < 4294967296)
    (hbuf : buf = pre ++ (le32 n ++ post)) (hk : k = pre.length) :
    getU32 buf k = .ok n := by
  subst hbuf; subst hk
  exact getU32_le32 pre post n h

theorem getI16_at (buf pre post : List Nat) (i : Int) (k : Nat)
    (h1 : -32768 ≤ i) (h2 : i ≤ 32767)
    (hbuf : buf = pre ++ (le16i i ++ post)) (hk : k = pre.length) :
    getI16 buf k = .ok i := by
  subst hbuf; subst hk
  exact getI16_le16i pre post i h1 h2

theorem quantize_position_range (v : ℚ) :
    -32768 ≤ quantize_position v ∧ quantize_position v ≤ 32767 := by
  unfold quantize_position
  constructor
  · exact le_max_left _ _
  · exact max_le (by norm_num) (min_le_left _ _)

/-- The value the decoder reconstructs for one node's 3D position from the
bytes the encoder wrote for it. -/
def decode3D (scale : ℚ) (positions : PosTable) (n : PackNode) : ℚ × ℚ × ℚ :=
  match posLookup positions n.id with
  | some xyz =>
      (((quantize_position xyz.1 : Int) : ℚ) / scale,
       ((quantize_position xyz.2.1 : Int) : ℚ) / scale,
       ((quantize_position xyz.2.2 : Int) : ℚ) / scale)
  | none => (0, 0, 0)

theorem read3I16_at (buf pre post : List Nat) (a b c : Int) (scale : ℚ)
    (ha1 : -32768 ≤ a) (ha2 : a ≤ 32767) (hb1 : -32768 ≤ b) (hb2 : b ≤ 32767)
    (hc1 : -32768 ≤ c) (hc2 : c ≤ 32767)
    (hbuf : buf = pre ++ ((le16i a ++ le16i b ++ le16i c) ++ post)) :
    (do
      let x ← getI16 buf pre.length
      let y ← getI16 buf (pre.length + 2)
      let z ← getI16 buf (pre.length + 4)
      pure ((x : ℚ) / scale, (y : ℚ) / scale, (z : ℚ) / scale)
      : Except String (ℚ × ℚ × ℚ)) =
    .ok ((a : ℚ) / scale, (b : ℚ) / scale, (c : ℚ) / scale) := by
  rw [getI16_at buf pre (le16i b ++ (le16i c ++ post)) a pre.length ha1 ha2
    (by rw [hbuf]; simp) rfl]
  rw [getI16_at buf (pre ++ le16i a) (le16i c ++ post) b (pre.length + 2)
    hb1 hb2 (by rw [hbuf]; simp) (by simp [le16i, le16])]
  rw [getI16_at buf (pre ++ le16i a ++ le16i b) post c (pre.length + 4)
    hc1 hc2 (by rw [hbuf]; simp) (by simp [le16i, le16])]
  rfl

/-- Parsing the 3D-position section reproduces the quantized positions
divided by the decoded scale. -/
theorem parse_3d_section (buf : List Nat) (nodes : List PackNode)
    (positions : PosTable) (scale : ℚ) (pre post : List Nat)
    (hbuf : buf = pre ++ (nodes.flatMap (fun n =>
      match posLookup positions n.id with
      | some xyz =>
          le16i (quantize_position xyz.1) ++ le16i (quantize_position xyz.2.1) ++
          le16i (quantize_position xyz.2.2)
      | none => le16i 0 ++ le16i 0 ++ le16i 0) ++ post)) :
    parseItems nodes.length (fun o => do
      let x ← getI16 buf o
      let y ← getI16 buf (o + 2)
      let z ← getI16 buf (o + 4)
      pure ((x : ℚ) / scale, (y : ℚ) / scale, (z : ℚ) / scale)) pre.length 6 =
    .ok (nodes.map (decode3D scale positions)) := by
  refine parseItems_flatMap buf _ _ (decode3D scale positions) 6 nodes
    ?_ pre post hbuf ?_
  · intro n _
    cases posLookup positions n.id <;> rfl
  · intro n p2 q2 _ hb
    unfold decode3D
    cases hpl : posLookup positions n.id with
    | some xyz =>
      rw [hpl] at hb
      exact read3I16_at buf p2 q2 _ _ _ scale
        (quantize_position_range xyz.1).1 (quantize_position_range xyz.1).2
        (quantize_position_range xyz.2.1).1 (quantize_position_range xyz.2.1).2
        (quantize_position_range xyz.2.2).1 (quantize_position_range xyz.2.2).2 hb
    | none =>
      rw [hpl] at hb
      have h := read3I16_at buf p2 q2 0 0 0 scale (by norm_num) (by norm_num)
        (by norm_num) (by norm_num) (by norm_num) (by norm_num) hb
      rw [h]
      norm_num

/-- The bytes `packEdges` writes for one edge whose endpoints resolve. -/
def encEdge (nodes : List PackNode) (e : PackEdge) : List Nat :=
  le32 ((nodeIdToIdx nodes e.source).getD 0) ++
  le32 ((nodeIdToIdx nodes e.target).getD 0) ++
  [e.piece_id % 256, directionCode e.direction]

theorem packEdges_foldl (nodes : List PackNode) (edges : List PackEdge) :
    ∀ (bs : List Nat),
      (∀ e ∈ edges, (nodeIdToIdx nodes e.source).isSome ∧
        (nodeIdToIdx nodes e.target).isSome) →
      edges.foldl (fun acc e => do
        let bs ← acc
        let si ← nodeIdToIdx nodes e.source
        let ti ← nodeIdToIdx nodes e.target
        pure (bs ++ le32 si ++ le32 ti ++
          [e.piece_id % 256, directionCode e.direction])) (some bs) =
      some (bs ++ edges.flatMap (encEdge nodes)) := by
  induction edges with
  | nil =>
    intro bs _
    simp
  | cons e es ih =>
    intro bs hres
    obtain ⟨hs, ht⟩ := hres e (List.mem_cons_self _ _)
    obtain ⟨si, hsi⟩ := Option.isSome_iff_exists.mp hs
    obtain ⟨ti, hti⟩ := Option.isSome_iff_exists.mp ht
    rw [List.foldl_cons]
    have hstep : (do
        let bs ← some bs
        let si ← nodeIdToIdx nodes e.source
        let ti ← nodeIdToIdx nodes e.target
        pure (bs ++ le32 si ++ le32 ti ++
          [e.piece_id % 256, directionCode e.direction]) : Option (List Nat)) =
        some (bs ++ le32 si ++ le32 ti ++
          [e.piece_id % 256, directionCode e.direction]) := by
      rw [hsi, hti]
      rfl
    rw [hstep, ih _ (fun x hx => hres x (List.mem_cons_of_mem _ hx))]
    congr 1
    rw [List.flatMap_cons]
    unfold encEdge
    rw [hsi, hti]
    simp [List.append_assoc]

theorem packEdges_eq_flatMap (nodes : List PackNode) (edges : List PackEdge)
    (hres : ∀ e ∈ edges, (nodeIdToIdx nodes e.source).isSome ∧
      (nodeIdToIdx nodes e.target).isSome) :
    packEdges nodes edges = some (edges.flatMap (encEdge nodes)) := by
  unfold packEdges
  rw [packEdges_foldl nodes edges [] hres]
  rfl

/-- A last-writer-wins lookup fold that returns `some` found its value in
the list (or it was the seed). -/
theorem foldl_lastfind {α β : Type} (P : α → Bool) (f : α → β) :
    ∀ (l : List α) (init : Option β) (r : β),
      l.foldl (fun acc p => if P p then some (f p) else acc) init = some r →
      (∃ p ∈ l, P p = true ∧ f p = r) ∨ init = some r := by
  intro l
  induction l with
  | nil =>
    intro init r h
    exact Or.inr h
  | cons x xs ih =>
    intro init r h
    rw [List.foldl_cons] at h
    rcases ih _ r h with ⟨p, hp, hP, hf⟩ | hinit
    · exact Or.inl ⟨p, List.mem_cons_of_mem _ hp, hP, hf⟩
    · by_cases hpx : P x = true
      · rw [if_pos hpx] at hinit
        injection hinit with hinit
        exact Or.inl ⟨x, List.mem_cons_self _ _, hpx, hinit⟩
      · rw [if_neg hpx] at hinit
        exact Or.inr hinit

/-- A successful `node_id_to_idx` lookup names a node that is really at that
index with that id. -/
theorem nodeIdToIdx_spec (nodes : List PackNode) (id : List Nat) (i : Nat)
    (h : nodeIdToIdx nodes id = some i) :
    ∃ n, nodes.get? i = some n ∧ n.id = id := by
  unfold nodeIdToIdx at h
  rcases foldl_lastfind (fun p => p.2.id == id) (fun p => p.1) nodes.enum none i h with
    ⟨⟨pi, pn⟩, hp, hP, hf⟩ | hseed
  · obtain ⟨hlt, hval⟩ := List.mem_enum hp
    refine ⟨pn, ?_, by simpa using hP⟩
    simp only at hf
    rw [← hf]
    rw [List.get?_eq_getElem?, List.getElem?_eq_getElem hlt]
    rw [hval]
  · exact absurd hseed (by simp)

theorem nodeIdToIdx_lt (nodes : List PackNode) (id : List Nat) (i : Nat)
    (h : nodeIdToIdx nodes id = some i) : i < nodes.length := by
  obtain ⟨n, hn, _⟩ := nodeIdToIdx_spec nodes id i h
  exact (List.get?_eq_some.mp hn).1

/-- The edge object the decoder reconstructs from `encEdge`'s bytes. -/
def decodeEdge (nodes : List PackNode) (nodeIds : List (List Nat))
    (e : PackEdge) : ParsedEdge :=
  { source := nodeIds.get? ((nodeIdToIdx nodes e.source).getD 0)
    target := nodeIds.get? ((nodeIdToIdx nodes e.target).getD 0)
    piece_id := e.piece_id % 256
    direction := (directionList.get? (directionCode e.direction)).getD "up" }

theorem readEdge_at (buf pre post : List Nat) (nodes : List PackNode)
    (nodeIds : List (List Nat)) (e : PackEdge)
    (hsi : (nodeIdToIdx nodes e.source).getD 0 < 4294967296)
    (hti : (nodeIdToIdx nodes e.target).getD 0 < 4294967296)
    (hbuf : buf = pre ++ (encEdge nodes e ++ post)) :
    (do
      let si ← getU32 buf pre.length
      let ti ← getU32 buf (pre.length + 4)
      let pid ← getU8 buf (pre.length + 8)
      let dc ← getU8 buf (pre.length + 9)
      pure ({ source := nodeIds.get? si, target := nodeIds.get? ti,
              piece_id := pid,
              direction := (directionList.get? dc).getD "up" } : ParsedEdge)
      : Except String ParsedEdge) = .ok (decodeEdge nodes nodeIds e) := by
  rw [getU32_at buf pre
    (le32 ((nodeIdToIdx nodes e.target).getD 0) ++
      ((e.piece_id % 256) :: directionCode e.direction :: post))
    ((nodeIdToIdx nodes e.source).getD 0) pre.length hsi
    (by rw [hbuf]; simp [encEdge]) rfl]
  rw [getU32_at buf (pre ++ le32 ((nodeIdToIdx nodes e.source).getD 0))
    ((e.piece_id % 256) :: directionCode e.direction :: post)
    ((nodeIdToIdx nodes e.target).getD 0) (pre.length + 4) hti
    (by rw [hbuf]; simp [encEdge]) (by simp [le32])]
  rw [getU8_at buf
    (pre ++ le32 ((nodeIdToIdx nodes e.source).getD 0) ++
      le32 ((nodeIdToIdx nodes e.target).getD 0))
    (directionCode e.direction :: post) (e.piece_id % 256) (pre.length + 8)
    (by rw [hbuf]; simp [encEdge, le32]) (by simp [le32])]
  rw [getU8_at buf
    (pre ++ le32 ((nodeIdToIdx nodes e.source).getD 0) ++
      le32 ((nodeIdToIdx nodes e.target).getD 0) ++ [e.piece_id % 256])
    post (directionCode e.direction) (pre.length + 9)
    (by rw [hbuf]; simp [encEdge, le32]) (by simp [le32])]
  rfl

/-- Parsing the edges section reproduces each edge as `decodeEdge`. -/
theorem parse_edges_section (buf : List Nat) (nodes : List PackNode)
    (nodeIds : List (List Nat)) (edges : List PackEdge) (pre post : List Nat)
    (hbuf : buf = pre ++ (edges.flatMap (encEdge nodes) ++ post))
    (hcount : nodes.length < 4294967296)
    (hres : ∀ e ∈ edges, (nodeIdToIdx nodes e.source).isSome ∧
      (nodeIdToIdx nodes e.target).isSome) :
    parseItems edges.length (fun o => do
      let si ← getU32 buf o
      let ti ← getU32 buf (o + 4)
      let pid ← getU8 buf (o + 8)
      let dc ← getU8 buf (o + 9)
      pure ({ source := nodeIds.get? si, target := nodeIds.get? ti,
              piece_id := pid,
              direction := (directionList.get? dc).getD "up" } : ParsedEdge)) pre.length 10 =
    .ok (edges.map (decodeEdge nodes nodeIds)) := by
  refine parseItems_flatMap buf (encEdge nodes) _ (decodeEdge nodes nodeIds)
    10 edges (fun x _ => by simp [encEdge, le32]) pre post hbuf ?_
  intro e p2 q2 he hb
  have hsrc : (nodeIdToIdx nodes e.source).getD 0 < 4294967296 := by
    obtain ⟨si, hsi⟩ := Option.isSome_iff_exists.mp (hres e he).1
    rw [hsi]
    exact lt_trans (nodeIdToIdx_lt nodes e.source si hsi) hcount
  have htgt : (nodeIdToIdx nodes e.target).getD 0 < 4294967296 := by
    obtain ⟨ti, hti⟩ := Option.isSome_iff_exists.mp (hres e he).2
    rw [hti]
    exact lt_trans (nodeIdToIdx_lt nodes e.target ti hti) hcount
  exact readEdge_at buf p2 q2 nodes nodeIds e hsrc htgt hb

/-!
## Success and failure of the decoder
-/

theorem isOk_exists {α : Type} (e : Except String α) :
    e.isOk = true ↔ ∃ a, e = .ok a := by
  cases e <;> simp [Except.isOk, Except.toBool]

theorem isOk_bind {α β : Type} (e : Except String α)
    (f : α → Except String β) :
    ((e >>= f).isOk = true) ↔ ∃ a, e = .ok a ∧ (f a).isOk = true := by
  cases e with
  | ok a =>
    constructor
    · intro h
      exact ⟨a, rfl, h⟩
    · rintro ⟨b, hb, h⟩
      injection hb with hb
      subst hb
      exact h
  | error s =>
    constructor
    · intro h
      exact absurd h (by simp [Except.isOk, Except.toBool]; rfl)
    · rintro ⟨b, hb, _⟩
      exact absurd hb (by simp)

theorem getU8_isOk (buf : List Nat) (k : Nat) :
    (getU8 buf k).isOk = true ↔ k + 1 ≤ buf.length := by
  unfold getU8
  cases h : buf.get? k with
  | some b =>
    have := (List.get?_eq_some.mp h).1
    simp only [Except.isOk, Except.toBool]
    constructor
    · intro _
      omega
    · intro _
      trivial
  | none =>
    rw [List.get?_eq_none] at h
    constructor
    · intro hc
      exact absurd hc (by simp [Except.isOk, Except.toBool])
    · intro hc
      omega

theorem getU8_eq_u8At (buf : List Nat) (k : Nat) (h : k + 1 ≤ buf.length) :
    getU8 buf k = .ok (u8At buf k) := by
  unfold getU8 u8At
  cases hg : buf.get? k with
  | some b =>
    rw [List.getD_eq_getElem?_getD, ← List.get?_eq_getElem?, hg]
    rfl
  | none =>
    rw [List.get?_eq_none] at hg
    omega

theorem getU16_eq_u16At (buf : List Nat) (k : Nat) (h : k + 2 ≤ buf.length) :
    getU16 buf k = .ok (u16At buf k) := by
  unfold getU16 u16At
  rw [getU8_eq_u8At buf k (by omega), getU8_eq_u8At buf (k + 1) (by omega)]
  rfl

theorem getU32_eq_u32At (buf : List Nat) (k : Nat) (h : k + 4 ≤ buf.length) :
    getU32 buf k = .ok (u32At buf k) := by
  unfold getU32 u32At
  rw [getU8_eq_u8At buf k (by omega), getU8_eq_u8At buf (k + 1) (by omega),
    getU8_eq_u8At buf (k + 2) (by omega), getU8_eq_u8At buf (k + 3) (by omega)]
  rfl

theorem getU16_isOk (buf : List Nat) (k : Nat) :
    (getU16 buf k).isOk = true ↔ k + 2 ≤ buf.length := by
  constructor
  · intro h
    unfold getU16 at h
    rw [isOk_bind] at h
    obtain ⟨b0, hb0, h⟩ := h
    rw [isOk_bind] at h
    obtain ⟨b1, hb1, _⟩ := h
    have := (getU8_isOk buf (k + 1)).mp ((isOk_exists _).mpr ⟨b1, hb1⟩)
    omega
  · intro h
    rw [getU16_eq_u16At buf k h]
    rfl

theorem getU32_isOk (buf : List Nat) (k : Nat) :
    (getU32 buf k).isOk = true ↔ k + 4 ≤ buf.length := by
  constructor
  · intro h
    unfold getU32 at h
    rw [isOk_bind] at h
    obtain ⟨b0, hb0, h⟩ := h
    rw [isOk_bind] at h
    obtain ⟨b1, hb1, h⟩ := h
    rw [isOk_bind] at h
    obtain ⟨b2, hb2, h⟩ := h
    rw [isOk_bind] at h
    obtain ⟨b3, hb3, _⟩ := h
    have := (getU8_isOk buf (k + 3)).mp ((isOk_exists _).mpr ⟨b3, hb3⟩)
    omega
  · intro h
    rw [getU32_eq_u32At buf k h]
    rfl

theorem getI16_isOk (buf : List Nat) (k : Nat) :
    (getI16 buf k).isOk = true ↔ k + 2 ≤ buf.length := by
  unfold getI16
  rw [isOk_bind]
  constructor
  · rintro ⟨v, hv, _⟩
    exact (getU16_isOk buf k).mp ((isOk_exists _).mpr ⟨v, hv⟩)
  · intro h
    obtain ⟨v, hv⟩ := (isOk_exists _).mp ((getU16_isOk buf k).mpr h)
    exact ⟨v, hv, rfl⟩

theorem getBytes_isOk (buf : List Nat) (off n : Nat) :
    (getBytes buf off n).isOk = true ↔ off + n ≤ buf.length := by
  unfold getBytes
  split_ifs with h
  · simp [h, Except.isOk, Except.toBool]
  · constructor
    · intro hc
      exact absurd hc (by simp [Except.isOk, Except.toBool])
    · intro hc
      exact absurd hc h

theorem parseItems_isOk_of {α : Type} (count : Nat)
    (readOne : Nat → Except String α) (size : Nat) :
    ∀ (off : Nat),
      (∀ i, i < count → (readOne (off + i * size)).isOk = true) →
      (parseItems count readOne off size).isOk = true := by
  induction count with
  | zero =>
    intro off _
    rfl
  | succ c ih =>
    intro off h
    show (parseItems (c + 1) readOne off size).isOk = true
    unfold parseItems
    rw [isOk_bind]
    obtain ⟨x, hx⟩ := (isOk_exists _).mp
      (by have := h 0 (Nat.succ_pos c); rwa [Nat.zero_mul, Nat.add_zero] at this)
    refine ⟨x, hx, ?_⟩
    rw [isOk_bind]
    obtain ⟨xs, hxs⟩ := (isOk_exists _).mp
      (ih (off + size) (fun i hi => by
        have := h (i + 1) (by omega)
        rwa [Nat.succ_mul, show off + (i * size + size) = off + size + i * size
          from by omega] at this))
    exact ⟨xs, hxs, rfl⟩

theorem parseItems_last {α : Type} (readOne : Nat → Except String α)
    (size : Nat) :
    ∀ (count off : Nat),
      (parseItems count readOne off size).isOk = true → 0 < count →
      (readOne (off + (count - 1) * size)).isOk = true := by
  intro count
  induction count with
  | zero =>
    intro off _ hc
    omega
  | succ c ih =>
    intro off h _
    rw [show parseItems (c + 1) readOne off size = (do
      let x ← readOne off
      let xs ← parseItems c readOne (off + size) size
      pure (x :: xs)) from rfl] at h
    rw [isOk_bind] at h
    obtain ⟨x, hx, h⟩ := h
    rw [isOk_bind] at h
    obtain ⟨xs, hxs, _⟩ := h
    match c with
    | 0 =>
      rw [Nat.add_sub_cancel, Nat.zero_mul, Nat.add_zero]
      exact (isOk_exists _).mpr ⟨x, hx⟩
    | k + 1 =>
      have := ih (off + size) ((isOk_exists _).mpr ⟨xs, hxs⟩) (Nat.succ_pos k)
      rw [Nat.add_sub_cancel] at this ⊢
      rwa [show off + size + k * size = off + (k + 1) * size from by
        rw [Nat.succ_mul]; omega] at this

theorem getU8_ok_get? (buf : List Nat) (k b : Nat)
    (h : getU8 buf k = .ok b) : buf.get? k = some b := by
  unfold getU8 at h
  cases hg : buf.get? k with
  | some c =>
    rw [hg] at h
    injection h with h
    rw [h]
  | none =>
    rw [hg] at h
    exact absurd h (by simp)

theorem getU16_ok_val (buf : List Nat) (k v : Nat)
    (h : getU16 buf k = .ok v) : k + 2 ≤ buf.length ∧ v = u16At buf k := by
  have hb := (getU16_isOk buf k).mp ((isOk_exists _).mpr ⟨v, h⟩)
  refine ⟨hb, ?_⟩
  rw [getU16_eq_u16At buf k hb] at h
  injection h with h
  exact h.symm

theorem getU32_ok_val (buf : List Nat) (k v : Nat)
    (h : getU32 buf k = .ok v) : k + 4 ≤ buf.length ∧ v = u32At buf k := by
  have hb := (getU32_isOk buf k).mp ((isOk_exists _).mpr ⟨v, h⟩)
  refine ⟨hb, ?_⟩
  rw [getU32_eq_u32At buf k hb] at h
  injection h with h
  exact h.symm

theorem u8At_of_get? (buf : List Nat) (k b : Nat)
    (h : buf.get? k = some b) : u8At buf k = b := by
  unfold u8At
  rw [List.getD_eq_getElem?_getD, ← List.get?_eq_getElem?, h]
  rfl

theorem take4_magic (buf : List Nat) (b0 b1 b2 b3 : Nat)
    (h0 : buf.get? 0 = some b0) (h1 : buf.get? 1 = some b1)
    (h2 : buf.get? 2 = some b2) (h3 : buf.get? 3 = some b3) :
    buf.take 4 = [b0, b1, b2, b3] := by
  match buf with
  | [] => exact absurd h0 (by simp)
  | [_] => exact absurd h1 (by simp)
  | [_, _] => exact absurd h2 (by simp)
  | [_, _, _] => exact absurd h3 (by simp)
  | a0 :: a1 :: a2 :: a3 :: rest =>
    simp only [List.get?] at h0 h1 h2 h3
    injection h0 with h0
    injection h1 with h1
    injection h2 with h2
    injection h3 with h3
    rw [List.take_succ_cons, List.take_succ_cons, List.take_succ_cons,
      List.take_succ_cons, List.take_zero, h0, h1, h2, h3]

theorem get?_of_take4 (buf : List Nat) (h : buf.take 4 = MAGIC) :
    buf.get? 0 = some 75 ∧ buf.get? 1 = some 76 ∧
    buf.get? 2 = some 71 ∧ buf.get? 3 = some 82 := by
  match buf with
  | [] => exact absurd h (by simp [MAGIC])
  | [_] => exact absurd h (by simp [MAGIC])
  | [_, _] => exact absurd h (by simp [MAGIC])
  | [_, _, _] => exact absurd h (by simp [MAGIC])
  | a0 :: a1 :: a2 :: a3 :: rest =>
    simp only [List.take_succ_cons, List.take_zero, MAGIC] at h
    injection h with e0 h
    injection h with e1 h
    injection h with e2 h
    injection h with e3 _
    rw [e0, e1, e2, e3]
    exact ⟨rfl, rfl, rfl, rfl⟩

theorem readPair_isOk (buf : List Nat) (o : Nat) :
    ((do
      let w ← getU8 buf o
      let h ← getU8 buf (o + 1)
      pure (w, h) : Except String (Nat × Nat)).isOk = true) ↔
    o + 2 ≤ buf.length := by
  rw [isOk_bind]
  constructor
  · rintro ⟨w, hw, h⟩
    rw [isOk_bind] at h
    obtain ⟨x, hx, _⟩ := h
    have := (getU8_isOk buf (o + 1)).mp ((isOk_exists _).mpr ⟨x, hx⟩)
    omega
  · intro h
    obtain ⟨w, hw⟩ := (isOk_exists _).mp ((getU8_isOk buf o).mpr (by omega))
    obtain ⟨x, hx⟩ := (isOk_exists _).mp ((getU8_isOk buf (o + 1)).mpr (by omega))
    exact ⟨w, hw, by rw [isOk_bind]; exact ⟨x, hx, rfl⟩⟩

theorem read3d_isOk (buf : List Nat) (scale : ℚ) (o : Nat) :
    ((do
      let x ← getI16 buf o
      let y ← getI16 buf (o + 2)
      let z ← getI16 buf (o + 4)
      pure ((x : ℚ) / scale, (y : ℚ) / scale, (z : ℚ) / scale)
      : Except String (ℚ × ℚ × ℚ)).isOk = true) ↔
    o + 6 ≤ buf.length := by
  rw [isOk_bind]
  constructor
  · rintro ⟨x, hx, h⟩
    rw [isOk_bind] at h
    obtain ⟨y, hy, h⟩ := h
    rw [isOk_bind] at h
    obtain ⟨z, hz, _⟩ := h
    have := (getI16_isOk buf (o + 4)).mp ((isOk_exists _).mpr ⟨z, hz⟩)
    omega
  · intro h
    obtain ⟨x, hx⟩ := (isOk_exists _).mp ((getI16_isOk buf o).mpr (by omega))
    obtain ⟨y, hy⟩ := (isOk_exists _).mp ((getI16_isOk buf (o + 2)).mpr (by omega))
    obtain ⟨z, hz⟩ := (isOk_exists _).mp ((getI16_isOk buf (o + 4)).mpr (by omega))
    exact ⟨x, hx, by
      rw [isOk_bind]
      exact ⟨y, hy, by rw [isOk_bind]; exact ⟨z, hz, rfl⟩⟩⟩

theorem readEdge_isOk (buf : List Nat) (nodeIds : List (List Nat)) (o : Nat) :
    ((do
      let si ← getU32 buf o
      let ti ← getU32 buf (o + 4)
      let pid ← getU8 buf (o + 8)
      let dc ← getU8 buf (o + 9)
      pure ({ source := nodeIds.get? si, target := nodeIds.get? ti,
              piece_id := pid,
              direction := (directionList.get? dc).getD "up" } : ParsedEdge)
      : Except String ParsedEdge).isOk = true) ↔
    o + 10 ≤ buf.length := by
  rw [isOk_bind]
  constructor
  · rintro ⟨si, hsi, h⟩
    rw [isOk_bind] at h
    obtain ⟨ti, hti, h⟩ := h
    rw [isOk_bind] at h
    obtain ⟨pid, hpid, h⟩ := h
    rw [isOk_bind] at h
    obtain ⟨dc, hdc, _⟩ := h
    have := (getU8_isOk buf (o + 9)).mp ((isOk_exists _).mpr ⟨dc, hdc⟩)
    omega
  · intro h
    obtain ⟨si, hsi⟩ := (isOk_exists _).mp ((getU32_isOk buf o).mpr (by omega))
    obtain ⟨ti, hti⟩ := (isOk_exists _).mp ((getU32_isOk buf (o + 4)).mpr (by omega))
    obtain ⟨pid, hpid⟩ := (isOk_exists _).mp ((getU8_isOk buf (o + 8)).mpr (by omega))
    obtain ⟨dc, hdc⟩ := (isOk_exists _).mp ((getU8_isOk buf (o + 9)).mpr (by omega))
    exact ⟨si, hsi, by
      rw [isOk_bind]
      exact ⟨ti, hti, by
        rw [isOk_bind]
        exact ⟨pid, hpid, by rw [isOk_bind]; exact ⟨dc, hdc, rfl⟩⟩⟩⟩

theorem exists_ok_and {α : Type} (e : Except String α) (p : α → Prop)
    (he : e.isOk = true) (hp : ∀ a, p a) : ∃ a, e = .ok a ∧ p a := by
  obtain ⟨a, ha⟩ := (isOk_exists _).mp he
  exact ⟨a, ha, hp a⟩

theorem parse_isOk_iff (buf : List Nat) :
    (parsePackedGraph buf).isOk = true ↔
      (buf.take 4 = MAGIC ∧ requiredLen buf ≤ buf.length) := by
  constructor
  · intro h
    unfold parsePackedGraph at h
    simp only [isOk_bind] at h
    obtain ⟨m0, hm0, m1, hm1, m2, hm2, m3, hm3, h⟩ := h
    by_cases hc : [m0, m1, m2, m3] = MAGIC
    · rw [if_neg (not_not_intro hc)] at h
      simp only [isOk_bind] at h
      obtain ⟨ver, hver, nC, hnC, eC, heC, pC, hpC, bw, hbw, bh, hbh,
        sr, hsr, pieces, hpieces, nodeIds, hids, rows, hrowsv, n3d, h3d,
        edges, hedges, _⟩ := h
      obtain ⟨hn4, hnCval⟩ := getU32_ok_val _ _ _ hnC
      obtain ⟨he4, heCval⟩ := getU32_ok_val _ _ _ heC
      obtain ⟨hp4, hpCval⟩ := getU16_ok_val _ _ _ hpC
      obtain ⟨hs4, _⟩ := getU16_ok_val _ _ _ hsr
      subst hnCval
      subst heCval
      subst hpCval
      refine ⟨by
        rw [take4_magic buf m0 m1 m2 m3 (getU8_ok_get? _ _ _ hm0)
          (getU8_ok_get? _ _ _ hm1) (getU8_ok_get? _ _ _ hm2)
          (getU8_ok_get? _ _ _ hm3), hc], ?_⟩
      rcases Nat.eq_zero_or_pos (u32At buf 10) with hE | hE
      · rcases Nat.eq_zero_or_pos (u32At buf 6) with hN | hN
        · rcases Nat.eq_zero_or_pos (u16At buf 14) with hP | hP
          · unfold requiredLen
            rw [hE, hN, hP]
            omega
          · have hlast := parseItems_last _ 2 (u16At buf 14) 20
              ((isOk_exists _).mpr ⟨pieces, hpieces⟩) hP
            simp only [readPair_isOk] at hlast
            unfold requiredLen
            rw [hE, hN]
            omega
        · have hlast := parseItems_last _ 6 (u32At buf 6) _
            ((isOk_exists _).mpr ⟨n3d, h3d⟩) hN
          simp only [read3d_isOk] at hlast
          unfold requiredLen
          rw [hE]
          omega
      · have hlast := parseItems_last _ 10 (u32At buf 10) _
          ((isOk_exists _).mpr ⟨edges, hedges⟩) hE
        simp only [readEdge_isOk] at hlast
        unfold requiredLen
        omega
    · rw [if_pos hc] at h
      exact absurd h (by simp [Except.isOk, Except.toBool])
  · rintro ⟨hmagic, hlen⟩
    obtain ⟨hg0, hg1, hg2, hg3⟩ := get?_of_take4 buf hmagic
    have h20 : 20 ≤ buf.length := le_trans (by unfold requiredLen; omega) hlen
    have hreq : 20 + 2 * u16At buf 14 + 16 * u32At buf 6 +
        2 * u16At buf 14 * u32At buf 6 + 6 * u32At buf 6 +
        10 * u32At buf 10 ≤ buf.length := by
      unfold requiredLen at hlen
      omega
    unfold parsePackedGraph
    simp only [isOk_bind]
    refine ⟨75, by unfold getU8; rw [hg0], 76, by unfold getU8; rw [hg1],
      71, by unfold getU8; rw [hg2], 82, by unfold getU8; rw [hg3], ?_⟩
    rw [if_neg (by simp [MAGIC])]
    simp only [isOk_bind]
    refine ⟨u16At buf 4, getU16_eq_u16At buf 4 (by omega), ?_⟩
    refine ⟨u32At buf 6, getU32_eq_u32At buf 6 (by omega), ?_⟩
    refine ⟨u32At buf 10, getU32_eq_u32At buf 10 (by omega), ?_⟩
    refine ⟨u16At buf 14, getU16_eq_u16At buf 14 (by omega), ?_⟩
    refine ⟨u8At buf 16, getU8_eq_u8At buf 16 (by omega), ?_⟩
    refine ⟨u8At buf 17, getU8_eq_u8At buf 17 (by omega), ?_⟩
    refine ⟨u16At buf 18, getU16_eq_u16At buf 18 (by omega), ?_⟩
    refine exists_ok_and _ _ (parseItems_isOk_of _ _ _ _ ?_) (fun pieces => ?_)
    · intro i hi
      simp only [readPair_isOk]
      omega
    refine exists_ok_and _ _ (parseItems_isOk_of _ _ _ _ ?_) (fun nodeIds => ?_)
    · intro i hi
      simp only [getBytes_isOk]
      omega
    refine exists_ok_and _ _ (parseItems_isOk_of _ _ _ _ ?_) (fun rows => ?_)
    · intro i hi
      refine parseItems_isOk_of _ _ _ _ ?_
      intro j hj
      simp only [readPair_isOk]
      obtain ⟨m, hm⟩ : ∃ m, u32At buf 6 = m + 1 := ⟨u32At buf 6 - 1, by omega⟩
      rw [hm] at hreq hi ⊢
      have ha : i * (2 * u16At buf 14) ≤ m * (2 * u16At buf 14) :=
        Nat.mul_le_mul_right _ (by omega)
      have hb : (m + 1) * (2 * u16At buf 14) =
          m * (2 * u16At buf 14) + 2 * u16At buf 14 := Nat.succ_mul _ _
      have hd : (m + 1) * (2 * u16At buf 14) =
          2 * u16At buf 14 * (m + 1) := Nat.mul_comm _ _
      omega
    refine exists_ok_and _ _ (parseItems_isOk_of _ _ _ _ ?_) (fun n3d => ?_)
    · intro i hi
      simp only [read3d_isOk]
      omega
    refine exists_ok_and _ _ (parseItems_isOk_of _ _ _ _ ?_) (fun edges => ?_)
    · intro i hi
      simp only [readEdge_isOk]
      omega
    rfl

/-- C7: for every input byte buffer, the decoder rejects the whole input
exactly when the first four bytes are not the magic value or the buffer
holds fewer bytes than the declared node/edge/piece counts require, and
otherwise parses successfully.  (Contrary to the claim, an unsupported
version value is *not* rejected: the version field does not occur in the
success condition, and `c7_counterexample` exhibits a buffer with version 2
that parses successfully.) -/
theorem c7_decoder_accepts_iff (buf : List Nat) :
    (parsePackedGraph buf).isOk = true ↔
      (buf.take 4 = MAGIC ∧ requiredLen buf ≤ buf.length) :=
  parse_isOk_iff buf

/-- A 20-byte buffer with correct magic, version field 2, zero counts. -/
def badVersionBuf : List Nat :=
  [75, 76, 71, 82, 2, 0, 0, 0, 0, 0, 0, 0, 0, 0, 0, 0, 3, 3, 10, 0]

/-- C7 counterexample: the decoder accepts a buffer whose version field (2)
is not the supported `VERSION = 1`; the generated TypeScript reads the
version but never checks it. -/
theorem c7_counterexample :
    (parsePackedGraph badVersionBuf).isOk = true ∧
      u16At badVersionBuf 4 ≠ VERSION := by
  decide

/-!
## Round-trip of the packed encoding
-/

theorem getU16_at (buf pre post : List Nat) (n k : Nat) (h : n < 65536)
    (hbuf : buf = pre ++ (le16 n ++ post)) (hk : k = pre.length) :
    getU16 buf k = .ok n := by
  subst hbuf; subst hk
  exact getU16_le16 pre post n h

theorem length_flatMap_pair {α : Type} (l : List α) (f g' : α → Nat) :
    (l.flatMap (fun x => [f x, g' x])).length = 2 * l.length := by
  induction l with
  | nil => rfl
  | cons x xs ih =>
    simp only [List.flatMap_cons, List.length_append, List.length_cons,
      List.length_nil, ih]
    omega

theorem length_flatMap_const {α : Type} (l : List α) (f : α → List Nat)
    (k : Nat) (h : ∀ x ∈ l, (f x).length = k) :
    (l.flatMap f).length = k * l.length := by
  induction l with
  | nil => simp
  | cons x xs ih =>
    rw [List.flatMap_cons, List.length_append, h x (List.mem_cons_self _ _),
      ih (fun y hy => h y (List.mem_cons_of_mem _ hy)), List.length_cons,
      Nat.mul_succ]
    omega

theorem parse_header_reads (buf rest : List Nat) (nN nE nP s bwb bhb : Nat)
    (hN : nN < 4294967296) (hE : nE < 4294967296) (hP : nP < 65536)
    (hs : s < 65536)
    (hbuf : buf = MAGIC ++ le16 VERSION ++ le32 nN ++ le32 nE ++ le16 nP ++
      [bwb, bhb] ++ le16 s ++ rest) :
    getU8 buf 0 = .ok 75 ∧ getU8 buf 1 = .ok 76 ∧ getU8 buf 2 = .ok 71 ∧
    getU8 buf 3 = .ok 82 ∧ getU16 buf 4 = .ok VERSION ∧
    getU32 buf 6 = .ok nN ∧ getU32 buf 10 = .ok nE ∧
    getU16 buf 14 = .ok nP ∧ getU8 buf 16 = .ok bwb ∧
    getU8 buf 17 = .ok bhb ∧ getU16 buf 18 = .ok s := by
  have hbufR : buf = 75 :: 76 :: 71 :: 82 :: (le16 VERSION ++ (le32 nN ++
      (le32 nE ++ (le16 nP ++ (bwb :: bhb :: (le16 s ++ rest)))))) := by
    rw [hbuf]
    simp [MAGIC, List.append_assoc]
  refine ⟨getU8_at buf [] _ 75 0 (by rw [hbufR]; rfl) rfl,
    getU8_at buf [75] _ 76 1 (by rw [hbufR]; rfl) rfl,
    getU8_at buf [75, 76] _ 71 2 (by rw [hbufR]; rfl) rfl,
    getU8_at buf [75, 76, 71] _ 82 3 (by rw [hbufR]; rfl) rfl,
    getU16_at buf [75, 76, 71, 82] _ VERSION 4 (by norm_num [VERSION])
      (by rw [hbufR]; rfl) rfl,
    getU32_at buf ([75, 76, 71, 82] ++ le16 VERSION) _ nN 6 hN
      (by rw [hbufR]; rfl) (by rfl),
    getU32_at buf ([75, 76, 71, 82] ++ le16 VERSION ++ le32 nN) _ nE 10 hE
      (by rw [hbufR]; rfl) (by rfl),
    getU16_at buf ([75, 76, 71, 82] ++ le16 VERSION ++ le32 nN ++ le32 nE) _
      nP 14 hP (by rw [hbufR]; rfl) (by rfl),
    getU8_at buf ([75, 76, 71, 82] ++ le16 VERSION ++ le32 nN ++ le32 nE ++
      le16 nP) _ bwb 16 (by rw [hbufR]; rfl) (by rfl),
    getU8_at buf ([75, 76, 71, 82] ++ le16 VERSION ++ le32 nN ++ le32 nE ++
      le16 nP ++ [bwb]) _ bhb 17 (by rw [hbufR]; rfl) (by rfl),
    getU16_at buf ([75, 76, 71, 82] ++ le16 VERSION ++ le32 nN ++ le32 nE ++
      le16 nP ++ [bwb, bhb]) _ s 18 hs (by rw [hbufR]; rfl) (by rfl)⟩

/-- Python `round` is within half a unit of its argument. -/
theorem pyRound_close (q : ℚ) : |((pyRound q : Int) : ℚ) - q| ≤ 1 / 2 := by
  have h1 : ((⌊q⌋ : Int) : ℚ) ≤ q := Int.floor_le q
  have h2 : q < ((⌊q⌋ : Int) : ℚ) + 1 := Int.lt_floor_add_one q
  unfold pyRound
  split_ifs with ha hb hc <;>
    (rw [abs_le]; push_cast; constructor <;> linarith)

/-- When the scaled value fits the int16 range, the clamp is inactive. -/
theorem quantize_noclamp (v : ℚ)
    (hlo : -32768 ≤ v * POSITION_SCALE) (hhi : v * POSITION_SCALE ≤ 32767) :
    quantize_position v = pyRound (v * POSITION_SCALE) := by
  have hp := pyRound_close (v * POSITION_SCALE)
  rw [abs_le] at hp
  have hge : -32768 ≤ pyRound (v * POSITION_SCALE) := by
    have : (-32769 : ℚ) < ((pyRound (v * POSITION_SCALE) : Int) : ℚ) := by
      linarith
    have : (-32769 : Int) < pyRound (v * POSITION_SCALE) := by
      exact_mod_cast this
    omega
  have hle : pyRound (v * POSITION_SCALE) ≤ 32767 := by
    have : ((pyRound (v * POSITION_SCALE) : Int) : ℚ) < 32768 := by
      linarith
    have : pyRound (v * POSITION_SCALE) < (32768 : Int) := by
      exact_mod_cast this
    omega
  unfold quantize_position
  rw [min_eq_right hle, max_eq_right hge]

/-- The quantize/dequantize round trip is within one quantization unit. -/
theorem quantize_dequantize_close (v : ℚ)
    (hlo : -32768 ≤ v * POSITION_SCALE) (hhi : v * POSITION_SCALE ≤ 32767) :
    |dequantize_position (quantize_position v) - v| ≤ 1 / POSITION_SCALE := by
  rw [quantize_noclamp v hlo hhi]
  unfold dequantize_position POSITION_SCALE
  rw [mul_one]
  simp only [div_one]
  exact le_trans (pyRound_close v) (by norm_num)

theorem decodeEdge_eq (nodes : List PackNode) (e : PackEdge)
    (hs : (nodeIdToIdx nodes e.source).isSome = true)
    (ht : (nodeIdToIdx nodes e.target).isSome = true)
    (hpid : e.piece_id < 256) (hdir : e.direction ∈ directionList) :
    decodeEdge nodes (nodes.map (fun n => n.id)) e =
      { source := some e.source, target := some e.target,
        piece_id := e.piece_id, direction := e.direction } := by
  obtain ⟨si, hsi⟩ := Option.isSome_iff_exists.mp hs
  obtain ⟨ti, hti⟩ := Option.isSome_iff_exists.mp ht
  obtain ⟨ns, hns, hnsid⟩ := nodeIdToIdx_spec nodes e.source si hsi
  obtain ⟨nt, hnt, hntid⟩ := nodeIdToIdx_spec nodes e.target ti hti
  unfold decodeEdge
  rw [hsi, hti]
  simp only [Option.getD_some]
  rw [List.get?_map, List.get?_map, hns, hnt]
  simp only [Option.map_some']
  rw [hnsid, hntid, Nat.mod_eq_of_lt hpid]
  have hdl : (directionList.get? (directionCode e.direction)).getD "up" =
      e.direction := by
    rcases (by simpa [directionList] using hdir :
        e.direction = "up" ∨ e.direction = "down" ∨ e.direction = "left" ∨
        e.direction = "right") with h | h | h | h <;>
      rw [h] <;> rfl
  rw [hdl]

/-- The decoded graph the round trip produces: all structure reproduced
exactly, 3D positions through quantize/dequantize. -/
def roundTripExpected (g : PackGraph) (positions : PosTable) : ParsedGraph :=
  ⟨⟨g.nodes.length, g.edges.length, g.pieces.length, g.board_width,
    g.board_height, 1⟩,
   g.pieces,
   g.nodes.map (fun n => ⟨n.id, n.positions, (decode3D 1 positions n).1,
     (decode3D 1 positions n).2.1, (decode3D 1 positions n).2.2⟩),
   g.edges.map (fun e => ⟨some e.source, some e.target, e.piece_id,
     e.direction⟩)⟩

theorem pack_parse_round_trip (g : PackGraph) (positions : PosTable)
    (buf : List Nat)
    (hids : ∀ n ∈ g.nodes, n.id.length = 16)
    (hp16 : g.pieces.length < 65536)
    (hpb : ∀ p ∈ g.pieces, p.1 < 256 ∧ p.2 < 256)
    (hn32 : g.nodes.length < 4294967296)
    (he32 : g.edges.length < 4294967296)
    (hbw : g.board_width < 256) (hbh : g.board_height < 256)
    (hrow : ∀ n ∈ g.nodes, n.positions.length = g.pieces.length)
    (hposb : ∀ n ∈ g.nodes, ∀ p ∈ n.positions, p.1 < 256 ∧ p.2 < 256)
    (hres : ∀ e ∈ g.edges, (nodeIdToIdx g.nodes e.source).isSome = true ∧
      (nodeIdToIdx g.nodes e.target).isSome = true)
    (hpid : ∀ e ∈ g.edges, e.piece_id < 256)
    (hdir : ∀ e ∈ g.edges, e.direction ∈ directionList)
    (hbuf : pack_graph g positions = some buf) :
    parsePackedGraph buf = .ok (roundTripExpected g positions) := by
  have hpe : packEdges g.nodes g.edges =
      some (g.edges.flatMap (encEdge g.nodes)) :=
    packEdges_eq_flatMap _ _ hres
  unfold pack_graph at hbuf
  rw [hpe] at hbuf
  injection hbuf with hbufE
  have hbufEq : buf = packHeader g ++
      (g.pieces.flatMap (fun wh => [wh.1 % 256, wh.2 % 256]) ++
      (g.nodes.flatMap (fun n => n.id) ++
      (g.nodes.flatMap (fun n =>
        n.positions.flatMap (fun xy => [xy.1 % 256, xy.2 % 256])) ++
      (pack3D g positions ++ g.edges.flatMap (encEdge g.nodes))))) := by
    rw [← hbufE]
    simp [List.append_assoc]
  have hsval : (⌊POSITION_SCALE * 10⌋).toNat = 10 := by
    norm_num [POSITION_SCALE]
    rfl
  obtain ⟨hm0, hm1, hm2, hm3, hver, hnC, heC, hpC, hbwv, hbhv, hsr⟩ :=
    parse_header_reads buf
      (g.pieces.flatMap (fun wh => [wh.1 % 256, wh.2 % 256]) ++
      (g.nodes.flatMap (fun n => n.id) ++
      (g.nodes.flatMap (fun n =>
        n.positions.flatMap (fun xy => [xy.1 % 256, xy.2 % 256])) ++
      (pack3D g positions ++ g.edges.flatMap (encEdge g.nodes)))))
      g.nodes.length g.edges.length g.pieces.length
      (⌊POSITION_SCALE * 10⌋).toNat (g.board_width % 256)
      (g.board_height % 256) hn32 he32 hp16 (by omega)
      (by rw [hbufEq]; simp [packHeader, List.append_assoc])
  rw [Nat.mod_eq_of_lt hbw] at hbwv
  rw [Nat.mod_eq_of_lt hbh] at hbhv
  rw [hsval] at hsr
  have hlen20 : (packHeader g).length = 20 := by
    simp [packHeader, MAGIC, le16, le32]
  have hlenP : (g.pieces.flatMap
      (fun wh => [wh.1 % 256, wh.2 % 256])).length = 2 * g.pieces.length :=
    length_flatMap_pair _ _ _
  have hlenI : (g.nodes.flatMap (fun n => n.id)).length =
      16 * g.nodes.length :=
    length_flatMap_const _ _ 16 hids
  have hlenPos : (g.nodes.flatMap (fun n =>
      n.positions.flatMap (fun xy => [xy.1 % 256, xy.2 % 256]))).length =
      2 * g.pieces.length * g.nodes.length :=
    length_flatMap_const _ _ _ (fun n hn => by
      rw [length_flatMap_pair, hrow n hn])
  have hlenX : (pack3D g positions).length = 6 * g.nodes.length := by
    unfold pack3D
    exact length_flatMap_const _ _ 6 (fun n _ => by
      cases posLookup positions n.id <;> simp [le16i, le16])
  have hpieces : parseItems g.pieces.length (fun o => do
      let w ← getU8 buf o
      let h ← getU8 buf (o + 1)
      pure (w, h)) 20 2 = .ok g.pieces := by
    have h := parse_pieces_section buf g.pieces (packHeader g)
      (g.nodes.flatMap (fun n => n.id) ++
      (g.nodes.flatMap (fun n =>
        n.positions.flatMap (fun xy => [xy.1 % 256, xy.2 % 256])) ++
      (pack3D g positions ++ g.edges.flatMap (encEdge g.nodes))))
      hbufEq hpb
    rwa [hlen20] at h
  have hids2 : parseItems g.nodes.length (fun o => getBytes buf o 16)
      (20 + 2 * g.pieces.length) 16 = .ok (g.nodes.map (fun n => n.id)) := by
    have h := parse_ids_section buf g.nodes
      (packHeader g ++ g.pieces.flatMap (fun wh => [wh.1 % 256, wh.2 % 256]))
      (g.nodes.flatMap (fun n =>
        n.positions.flatMap (fun xy => [xy.1 % 256, xy.2 % 256])) ++
      (pack3D g positions ++ g.edges.flatMap (encEdge g.nodes)))
      (by rw [hbufEq]; simp [List.append_assoc]) hids
    rwa [List.length_append, hlen20, hlenP] at h
  have hrows2 : parseItems g.nodes.length (fun o =>
      parseItems g.pieces.length (fun o2 => do
        let x ← getU8 buf o2
        let y ← getU8 buf (o2 + 1)
        pure (x, y)) o 2)
      (20 + 2 * g.pieces.length + 16 * g.nodes.length)
      (2 * g.pieces.length) = .ok (g.nodes.map (fun n => n.positions)) := by
    have h := parse_positions_section buf g.nodes g.pieces.length
      (packHeader g ++ g.pieces.flatMap (fun wh => [wh.1 % 256, wh.2 % 256]) ++
        g.nodes.flatMap (fun n => n.id))
      (pack3D g positions ++ g.edges.flatMap (encEdge g.nodes))
      (by rw [hbufEq]; simp [List.append_assoc]) hrow hposb
    rwa [List.length_append, List.length_append, hlen20, hlenP, hlenI] at h
  have h3d2 : parseItems g.nodes.length (fun o => do
      let x ← getI16 buf o
      let y ← getI16 buf (o + 2)
      let z ← getI16 buf (o + 4)
      pure ((x : ℚ) / (((10 : Nat) : ℚ) / 10),
        (y : ℚ) / (((10 : Nat) : ℚ) / 10),
        (z : ℚ) / (((10 : Nat) : ℚ) / 10)))
      (20 + 2 * g.pieces.length + 16 * g.nodes.length +
        2 * g.pieces.length * g.nodes.length) 6 =
      .ok (g.nodes.map (decode3D (((10 : Nat) : ℚ) / 10) positions)) := by
    have h := parse_3d_section buf g.nodes positions (((10 : Nat) : ℚ) / 10)
      (packHeader g ++ g.pieces.flatMap (fun wh => [wh.1 % 256, wh.2 % 256]) ++
        g.nodes.flatMap (fun n => n.id) ++
        g.nodes.flatMap (fun n =>
          n.positions.flatMap (fun xy => [xy.1 % 256, xy.2 % 256])))
      (g.edges.flatMap (encEdge g.nodes))
      (by rw [hbufEq]; simp [pack3D, List.append_assoc])
    rwa [List.length_append, List.length_append, List.length_append,
      hlen20, hlenP, hlenI, hlenPos] at h
  have hedges2 : parseItems g.edges.length (fun o => do
      let si ← getU32 buf o
      let ti ← getU32 buf (o + 4)
      let pid ← getU8 buf (o + 8)
      let dc ← getU8 buf (o + 9)
      pure ({ source := (g.nodes.map (fun n => n.id)).get? si,
              target := (g.nodes.map (fun n => n.id)).get? ti,
              piece_id := pid,
              direction := (directionList.get? dc).getD "up" } : ParsedEdge))
      (20 + 2 * g.pieces.length + 16 * g.nodes.length +
        2 * g.pieces.length * g.nodes.length + 6 * g.nodes.length) 10 =
      .ok (g.edges.map (decodeEdge g.nodes (g.nodes.map (fun n => n.id)))) := by
    have h := parse_edges_section buf g.nodes (g.nodes.map (fun n => n.id))
      g.edges
      (packHeader g ++ g.pieces.flatMap (fun wh => [wh.1 % 256, wh.2 % 256]) ++
        g.nodes.flatMap (fun n => n.id) ++
        g.nodes.flatMap (fun n =>
          n.positions.flatMap (fun xy => [xy.1 % 256, xy.2 % 256])) ++
        pack3D g positions) []
      (by rw [hbufEq]; simp [pack3D, List.append_assoc]) hn32 hres
    rwa [List.length_append, List.length_append, List.length_append,
      List.length_append, hlen20, hlenP, hlenI, hlenPos, hlenX] at h
  simp only [bind, Except.bind] at hpieces hrows2 h3d2 hedges2
  unfold parsePackedGraph
  simp only [hm0, hm1, hm2, hm3, bind, Except.bind]
  rw [if_neg (by simp [MAGIC])]
  simp only [hver, hnC, heC, hpC, hbwv, hbhv, hsr, hpieces, hids2, hrows2,
    h3d2, hedges2, bind, Except.bind]
  rw [List.zip_map', List.zip_map', List.map_map]
  rw [show (((10 : Nat) : ℚ) / 10) = (1 : ℚ) from by norm_num]
  rw [List.map_congr_left (fun e he =>
    decodeEdge_eq g.nodes e (hres e he).1 (hres e he).2 (hpid e he)
      (hdir e he))]
  rfl

/-- C6: decoding the encoder's output reproduces node fingerprints in order,
piece metadata, board dimensions and the edge list exactly, and the
quantize/dequantize pair is within one quantization unit whenever the scaled
value lies in the int16 range.  (The in-range condition is required:
`c6_counterexample` shows the clamp puts an out-of-range position far from
its original value, so the claim's "any external position table" reading is
too strong; the byte-width bounds on the graph are required for the same
reason.) -/
theorem c6_round_trip (g : PackGraph) (positions : PosTable) (buf : List Nat)
    (hids : ∀ n ∈ g.nodes, n.id.length = 16)
    (hp16 : g.pieces.length < 65536)
    (hpb : ∀ p ∈ g.pieces, p.1 < 256 ∧ p.2 < 256)
    (hn32 : g.nodes.length < 4294967296)
    (he32 : g.edges.length < 4294967296)
    (hbw : g.board_width < 256) (hbh : g.board_height < 256)
    (hrow : ∀ n ∈ g.nodes, n.positions.length = g.pieces.length)
    (hposb : ∀ n ∈ g.nodes, ∀ p ∈ n.positions, p.1 < 256 ∧ p.2 < 256)
    (hres : ∀ e ∈ g.edges, (nodeIdToIdx g.nodes e.source).isSome = true ∧
      (nodeIdToIdx g.nodes e.target).isSome = true)
    (hpid : ∀ e ∈ g.edges, e.piece_id < 256)
    (hdir : ∀ e ∈ g.edges, e.direction ∈ directionList)
    (hbuf : pack_graph g positions = some buf) :
    parsePackedGraph buf = .ok (roundTripExpected g positions) ∧
    ∀ v : ℚ, -32768 ≤ v * POSITION_SCALE → v * POSITION_SCALE ≤ 32767 →
      |dequantize_position (quantize_position v) - v| ≤ 1 / POSITION_SCALE :=
  ⟨pack_parse_round_trip g positions buf hids hp16 hpb hn32 he32 hbw hbh
    hrow hposb hres hpid hdir hbuf,
   fun v h1 h2 => quantize_dequantize_close v h1 h2⟩

/-- A 16-byte fingerprint for the concrete round-trip instance. -/
def rtIdBytes : List Nat := List.replicate 16 7

/-- A one-node, one-edge graph on a 3x3 board with one 1x1 piece. -/
def rtGraph : PackGraph :=
  ⟨3, 3, [(1, 1)], [⟨rtIdBytes, [(0, 0)]⟩],
   [⟨rtIdBytes, rtIdBytes, 0, "up"⟩]⟩

theorem rtGraph_packs :
    pack_graph rtGraph [] =
      some (packHeader rtGraph ++
        rtGraph.pieces.flatMap (fun wh => [wh.1 % 256, wh.2 % 256]) ++
        rtGraph.nodes.flatMap (fun n => n.id) ++
        rtGraph.nodes.flatMap (fun n =>
          n.positions.flatMap (fun xy => [xy.1 % 256, xy.2 % 256])) ++
        pack3D rtGraph [] ++
        [0, 0, 0, 0, 0, 0, 0, 0, 0, 0]) := by
  unfold pack_graph
  rw [show packEdges rtGraph.nodes rtGraph.edges =
    some [0, 0, 0, 0, 0, 0, 0, 0, 0, 0] from by decide]
  rfl

/-- C6 witness: the round-trip theorem applied to the concrete one-node
graph; every hypothesis is discharged by computation. -/
theorem c6_witness :
    parsePackedGraph ((pack_graph rtGraph []).getD []) =
      .ok (roundTripExpected rtGraph []) :=
  (c6_round_trip rtGraph [] ((pack_graph rtGraph []).getD [])
    (by decide) (by decide) (by decide) (by decide) (by decide)
    (by decide) (by decide) (by decide) (by decide) (by decide)
    (by decide) (by decide)
    (by rw [rtGraph_packs]; rfl)).1

/-- C6 counterexample: an out-of-range position (x = 100000) is clamped to
32767 by `quantize_position`, so its decoded value is 67233 units away from
the original — the one-unit round-trip bound fails for a position table
holding values outside the int16 range of the scaled coordinates. -/
theorem c6_counterexample :
    ¬(|dequantize_position (quantize_position 100000) - 100000| ≤
      1 / POSITION_SCALE) := by
  have h100 : (⌊(100000 : ℚ) * POSITION_SCALE⌋ : Int) = 100000 := by
    norm_num [POSITION_SCALE]
  unfold quantize_position pyRound dequantize_position
  rw [h100]
  rw [if_pos (by norm_num [POSITION_SCALE] :
    (100000 : ℚ) * POSITION_SCALE - ((100000 : Int) : ℚ) < 1 / 2)]
  rw [show min (32767 : Int) 100000 = 32767 from by norm_num]
  rw [show max (-32768 : Int) 32767 = 32767 from by norm_num]
  rw [show ((32767 : Int) : ℚ) = 32767 from by norm_num]
  unfold POSITION_SCALE
  rw [div_one, abs_of_nonpos (by norm_num)]
  norm_num
